import Mathlib

/-!
# Verification of the voice-transcript-to-task pipeline of the todo-list app

This file gives a shallow embedding, in Lean, of the transcript-processing
core of the repository (main sources: `app/hooks/useVoice.ts`,
`app/screens/TaskListScreen.tsx`, `app/utils/taskStorage.ts`) and proves or
refutes the specified properties of that core.

Modelling conventions:
* JavaScript strings are `String` (lists of characters); the embedding is
  faithful for ASCII text (Lean's `Char.toLower`/`Char.isWhitespace` agree
  with the JS regex classes `\w`, `\s` and `String.toLowerCase` on ASCII).
* JS regular-expression operations used by the source
  (`replace(/\s+/g," ")`, `replace(/\b(\w+)(?: \1\b)+/gi,"$1")`,
  `replace(/\s+([,.;?!])/g,"$1")`, `split(/\s*(?:,|;|\band\b|\bthen\b|\bor\b|&)\s*/i)`,
  `split(/\s+and\s+/i)`) are implemented as character-level scanning
  functions that realise exactly the leftmost, greedy, global match
  semantics of those patterns; each implementation carries a comment
  explaining the correspondence.
* JS numbers holding recognizer confidences are modelled as `ℚ`
  (comparisons of the magnitudes involved are exact in both models).
* `Math.random()`-driven index picks are modelled by an explicit supply of
  natural numbers (`List Nat`), consumed in execution order; a supplied
  value `r` for a pick among `n` items models `Math.floor(Math.random()*n)`
  as `r % n`.
* All definitions use structural or fuel-bounded recursion (fuel is always
  instantiated with a bound that the actual recursion never exhausts), so
  every definition is executable by kernel reduction.
-/

namespace TodoVoice

/-! ## Character and string primitives -/

/-- JS whitespace class `\s` (ASCII fragment). -/
def isWs (c : Char) : Bool := c.isWhitespace

/-- JS word-character class `\w` = `[A-Za-z0-9_]`. -/
def isWordChar (c : Char) : Bool := c.isAlpha || c.isDigit || c = '_'

/-- ASCII lower-casing, as performed by `String.toLowerCase` / the regex
`i` flag on ASCII input. -/
def lowerChar (c : Char) : Char := c.toLower

/-- Lower-case a whole string (JS `String.toLowerCase`, ASCII fragment). -/
def lowerStr (s : String) : String := String.mk (s.data.map lowerChar)

/-- JS `String.prototype.trim`: drop leading and trailing whitespace. -/
def trimChars (l : List Char) : List Char :=
  ((l.dropWhile isWs).reverse.dropWhile isWs).reverse

/-- JS `s.trim()` on `String`. -/
def jsTrim (s : String) : String := String.mk (trimChars s.data)

/-- Worker for `collapseWs`; the flag records whether the previous character
was whitespace (so a run of whitespace emits a single `' '`). -/
def collapseWsAux : Bool → List Char → List Char
  | _, [] => []
  | prevWs, c :: rest =>
    if isWs c then
      (if prevWs then collapseWsAux true rest else ' ' :: collapseWsAux true rest)
    else c :: collapseWsAux false rest

/-- JS `s.replace(/\s+/g, " ")`: collapse every whitespace run to one space. -/
def collapseWs (l : List Char) : List Char := collapseWsAux false l

/-- Split on single space characters, keeping empty pieces:
JS `s.split(" ")`.  The accumulator holds the current piece reversed. -/
def splitSpAux (cur : List Char) : List Char → List (List Char)
  | [] => [cur.reverse]
  | c :: rest =>
    if c = ' ' then cur.reverse :: splitSpAux [] rest else splitSpAux (c :: cur) rest

/-- JS `s.split(" ")`. -/
def splitSp (l : List Char) : List (List Char) := splitSpAux [] l

/-- Tail of `joinSp`: prepend `" "` before every further piece. -/
def joinSpAux : List (List Char) → List Char
  | [] => []
  | t :: rest => ' ' :: (t ++ joinSpAux rest)

/-- JS `parts.join(" ")`. -/
def joinSp : List (List Char) → List Char
  | [] => []
  | t :: rest => t ++ joinSpAux rest

/-- Case-insensitive equality of character lists (regex backreference `\1`
under the `i` flag, ASCII fragment). -/
def ciEq (a b : List Char) : Bool := a.map lowerChar == b.map lowerChar

/-- The word-boundary `\b` that must follow a backreference: the next
character is absent or not a word character. -/
def boundaryAfter : List Char → Bool
  | [] => true
  | c :: _ => !isWordChar c

/-! ## The duplicate-word regex `\b(\w+)(?: \1\b)+`/gi

A match of this pattern must start at the beginning of a maximal word-
character run `w` (the `\b` plus greedy `\w+`: a shorter capture would put a
word character right after the capture, where the pattern requires a space,
so the capture is always the full run) followed by one or more repetitions
of `" " ++ w` (case-insensitive) each ending at a word boundary.  Global
replacement by `$1` keeps the first run and continues scanning after the
match; positions inside a word run can never start a match (no boundary), so
a failed run is skipped whole. -/

/-- Consume the repetitions `(?: \1\b)+` after a captured word run `w`:
repeatedly drop `' ' :: w` (case-insensitive, with a word boundary after).
Returns the remaining suffix. -/
def eatReps : Nat → List Char → List Char → List Char
  | 0, _, l => l
  | fuel + 1, w, l =>
    match l with
    | [] => []
    | c :: t =>
      if c = ' ' && ciEq (t.take w.length) w && boundaryAfter (t.drop w.length) then
        eatReps fuel w (t.drop w.length)
      else c :: t

/-- Global replacement `s.replace(/\b(\w+)(?: \1\b)+/gi, "$1")`. -/
def dupScan : Nat → List Char → List Char
  | 0, l => l
  | fuel + 1, l =>
    match l with
    | [] => []
    | c :: rest =>
      if isWordChar c then
        (c :: rest.takeWhile isWordChar) ++
          dupScan fuel
            (eatReps rest.length (c :: rest.takeWhile isWordChar)
              (rest.dropWhile isWordChar))
      else c :: dupScan fuel rest

/-- Run the duplicate-word collapse on a whole character list. -/
def dupCollapse (l : List Char) : List Char := dupScan l.length l

/-- The punctuation class `[,.;?!]` of the cleanup regex. -/
def isPunctMark (c : Char) : Bool :=
  c = ',' || c = '.' || c = ';' || c = '?' || c = '!'

/-- Global replacement `s.replace(/\s+([,.;?!])/g, "$1")`: a whitespace run
immediately followed by one of the punctuation marks is deleted (the greedy
`\s+` always takes the whole run, so a run not followed by punctuation can
contain no match start and is skipped whole). -/
def punctStrip : Nat → List Char → List Char
  | 0, l => l
  | fuel + 1, l =>
    match l with
    | [] => []
    | c :: rest =>
      if isWs c then
        match rest.dropWhile isWs with
        | [] => c :: rest.takeWhile isWs
        | p :: t =>
          if isPunctMark p then p :: punctStrip fuel t
          else (c :: rest.takeWhile isWs) ++ (p :: punctStrip fuel t)
      else c :: punctStrip fuel rest

/-! ## The n-gram collapse loop of `normalizeTranscript`

Source (`useVoice.ts` lines 258-286): scan the word array left to right; at
each position try window sizes `n = 3, 2, 1`; if the next `n` words
(lower-cased, joined with `" "`) equal the following `n` words, keep one copy
and advance past both; otherwise emit one word and advance by one. -/

/-- The window comparison of the source:
`words.slice(i, i+n).map(lower).join(" ") === words.slice(i+n, i+2n).map(lower).join(" ")`,
guarded by `i + n*2 - 1 < words.length` (at least `2n` words remain). -/
def ngramMatch (n : Nat) (ws : List (List Char)) : Bool :=
  decide (2 * n ≤ ws.length) &&
    (joinSp ((ws.take n).map (List.map lowerChar)) ==
      joinSp (((ws.drop n).take n).map (List.map lowerChar)))

/-- The scanning loop (`while (i < words.length) ... for n of [3,2,1]`). -/
def ngramScan : Nat → List (List Char) → List (List Char)
  | 0, ws => ws
  | fuel + 1, ws =>
    match ws with
    | [] => []
    | w :: rest =>
      if ngramMatch 3 (w :: rest) then
        (w :: rest).take 3 ++ ngramScan fuel ((w :: rest).drop 6)
      else if ngramMatch 2 (w :: rest) then
        (w :: rest).take 2 ++ ngramScan fuel ((w :: rest).drop 4)
      else if ngramMatch 1 (w :: rest) then
        (w :: rest).take 1 ++ ngramScan fuel ((w :: rest).drop 2)
      else w :: ngramScan fuel rest

/-- `normalizeTranscript` (`useVoice.ts` lines 253-291): trim, collapse
whitespace, collapse duplicate adjacent words (regex), collapse repeated
1/2/3-grams (scan), re-run the duplicate-word regex, and delete whitespace
before punctuation.  The guard `if (!txt) return ""` only fires on the empty
string. -/
def normalizeTranscript (txt : String) : String :=
  if txt = "" then "" else
  let s1 := collapseWs (trimChars txt.data)
  let s2 := dupCollapse s1
  let ws := splitSp s2
  let cl := ngramScan ws.length ws
  let r1 := trimChars (joinSp cl)
  let r2 := dupCollapse r1
  String.mk (punctStrip r2.length r2)

/-! ## The incremental merger (`fold`)

Source: the `useSpeechRecognitionEvent("result")` handler of
`app/screens/TaskListScreen.tsx` (lines 362-406), which merges the previous
final transcript with each newly extracted chunk. -/

/-- JS `t.startsWith(prev)` (case-sensitive prefix test). -/
def jsStartsWith (t pre : String) : Bool := pre.data.isPrefixOf t.data

/-- JS `prev.endsWith(t)` (case-sensitive suffix test). -/
def jsEndsWith (s suffix : String) : Bool := suffix.data.isSuffixOf s.data

/-- The four-case merge of the "result" handler:
`if (!prev) updated = t; else if (t.startsWith(prev)) updated = t;
else if (prev.endsWith(t)) updated = prev; else updated = prev + " " + t`. -/
def foldTranscript (prev t : String) : String :=
  if prev = "" then t
  else if jsStartsWith t prev then t
  else if jsEndsWith prev t then prev
  else prev ++ " " ++ t

/-! ## Recognition-event payloads, `chooseBestAlternative` and
`extractTranscriptFromEvent` (`useVoice.ts` lines 103-243)

The recognizer's payload shape is untyped in the source (`ev: any`); the
fields the extractor probes are modelled as optional fields, where `none`
stands for an absent field or one of the wrong runtime type.  Confidences
(JS numbers) are `ℚ`. -/

structure Alt where
  transcript : Option String
  text : Option String
  confidence : Option ℚ
deriving DecidableEq

structure ResultSegment where
  alternatives : Option (List Alt)
  transcript : Option String
  text : Option String
  confidence : Option ℚ
deriving DecidableEq

structure Payload where
  transcript : Option String
  alternatives : Option (List Alt)
  results : Option (List (Option ResultSegment))
  text : Option String
  value : Option String
deriving DecidableEq

/-- `a?.transcript ?? a?.text ?? undefined` on an alternative. -/
def altText (a : Alt) : Option String :=
  match a.transcript with
  | some t => some t
  | none => a.text

/-- Accumulator of the index loop inside `chooseBestAlternative`:
`bestIdx`, `bestConf` and `allConfMissing` exactly as in the source. -/
structure ChooseState where
  bestIdx : Nat
  bestConf : Option ℚ
  allConfMissing : Bool
deriving DecidableEq

/-- The `for (let i = 0; ...)` loop of `chooseBestAlternative`: the state is
updated at index `i` when the alternative carries a numeric confidence that
is strictly greater than the best seen so far (`bestConf === null ||
conf > bestConf`); `allConfMissing` is cleared whenever any confidence is
seen. -/
def chooseLoop : List Alt → Nat → ChooseState → ChooseState
  | [], _, st => st
  | a :: rest, i, st =>
    match a.confidence with
    | none => chooseLoop rest (i + 1) st
    | some c =>
      match st.bestConf with
      | none => chooseLoop rest (i + 1) ⟨i, some c, false⟩
      | some b =>
        if c > b then chooseLoop rest (i + 1) ⟨i, some c, false⟩
        else chooseLoop rest (i + 1) ⟨st.bestIdx, some b, false⟩

/-- `chooseBestAlternative` (`useVoice.ts` lines 103-135).  When at least one
confidence is present the loop's winner is returned without consuming
randomness; otherwise `Math.floor(Math.random() * alternatives.length)`
picks an index: the head of the supply (taken modulo the length; an
exhausted supply models a draw of 0). -/
def chooseBestAlternative (alternatives : List Alt) (supply : List Nat) :
    Option String × List Nat :=
  if alternatives = [] then (none, supply) else
  let st := chooseLoop alternatives 0 ⟨0, none, true⟩
  if st.allConfMissing = false && st.bestConf.isSome then
    ((alternatives.get? st.bestIdx).bind altText, supply)
  else
    match supply with
    | r :: rest => ((alternatives.get? (r % alternatives.length)).bind altText, rest)
    | [] => ((alternatives.get? 0).bind altText, [])

/-- One entry of the `flatAlts` array built in the `results` branch of
`extractTranscriptFromEvent`: a trimmed non-empty transcript together with
its confidence (or `none`). -/
def collectSegAlts : List Alt → List (String × Option ℚ)
  | [] => []
  | a :: rest =>
    let txt := jsTrim ((altText a).getD "")
    if txt ≠ "" then (txt, a.confidence) :: collectSegAlts rest
    else collectSegAlts rest

/-- The `flatAlts` accumulation over `ev.results` (`useVoice.ts` lines
164-193): per segment, prefer its `alternatives`, else its `transcript`
(with the segment's own `confidence`), else its `text` (confidence `null`);
null segments are skipped. -/
def flatAltsOf : List (Option ResultSegment) → List (String × Option ℚ)
  | [] => []
  | none :: rs => flatAltsOf rs
  | some r :: rs =>
    match r.alternatives with
    | some (a :: as) => collectSegAlts (a :: as) ++ flatAltsOf rs
    | _ =>
      match r.transcript with
      | some t =>
        if jsTrim t ≠ "" then (jsTrim t, r.confidence) :: flatAltsOf rs
        else
          match r.text with
          | some x =>
            if jsTrim x ≠ "" then (jsTrim x, none) :: flatAltsOf rs else flatAltsOf rs
          | none => flatAltsOf rs
      | none =>
        match r.text with
        | some x =>
          if jsTrim x ≠ "" then (jsTrim x, none) :: flatAltsOf rs else flatAltsOf rs
        | none => flatAltsOf rs

/-- The maximum-confidence fold over `numericConfs`
(`maxConf = -Infinity; ... if (conf > maxConf) maxConf = conf`); `none`
plays the role of the `-Infinity` start. -/
def maxConfFold (l : List (String × Option ℚ)) : Option ℚ :=
  l.foldl
    (fun m a =>
      match a.2 with
      | none => m
      | some c =>
        match m with
        | none => some c
        | some b => if c > b then some c else some b)
    none

/-- The sequential `parts` loop of the no-confidence path (`useVoice.ts`
lines 216-231): one best alternative per segment (consuming random draws
through `chooseBestAlternative`), else the segment's `transcript`, else its
`text`; falsy (empty) picks are skipped. -/
def partsOf (supply : List Nat) : List (Option ResultSegment) → List String × List Nat
  | [] => ([], supply)
  | none :: rs => partsOf supply rs
  | some r :: rs =>
    match r.alternatives with
    | some (a :: as) =>
      let pick := chooseBestAlternative (a :: as) supply
      match pick.1 with
      | some b =>
        if b ≠ "" then
          let pr := partsOf pick.2 rs
          (jsTrim b :: pr.1, pr.2)
        else partsOf pick.2 rs
      | none => partsOf pick.2 rs
    | _ =>
      match r.transcript with
      | some t =>
        if jsTrim t ≠ "" then
          let pr := partsOf supply rs
          (jsTrim t :: pr.1, pr.2)
        else
          match r.text with
          | some x =>
            if jsTrim x ≠ "" then
              let pr := partsOf supply rs
              (jsTrim x :: pr.1, pr.2)
            else partsOf supply rs
          | none => partsOf supply rs
      | none =>
        match r.text with
        | some x =>
          if jsTrim x ≠ "" then
            let pr := partsOf supply rs
            (jsTrim x :: pr.1, pr.2)
          else partsOf supply rs
        | none => partsOf supply rs

/-- Join a list of strings with single spaces (JS `parts.join(" ")`). -/
def joinParts (parts : List String) : String :=
  String.mk (joinSp (parts.map String.data))

/-- The `results` branch of `extractTranscriptFromEvent` (`useVoice.ts`
lines 163-234).  If any flattened alternative carries a numeric confidence,
the single highest-confidence one wins (ties among the maximal candidates
are broken by a random index draw); otherwise the per-segment picks are
joined with spaces and returned when non-empty. -/
def resultsBranch (rs : List (Option ResultSegment)) (supply : List Nat) :
    Option String × List Nat :=
  let flatAlts := flatAltsOf rs
  let numericConfs := flatAlts.filter (fun a => a.2.isSome)
  if numericConfs ≠ [] then
    let maxConf := maxConfFold numericConfs
    let candidates := numericConfs.filter (fun a => a.2 = maxConf)
    if candidates.length = 1 then ((candidates.get? 0).map Prod.fst, supply)
    else
      match supply with
      | r :: rest => ((candidates.get? (r % candidates.length)).map Prod.fst, rest)
      | [] => ((candidates.get? 0).map Prod.fst, [])
  else
    let parts := partsOf supply rs
    let collected := jsTrim (joinParts parts.1)
    if collected ≠ "" then (some collected, parts.2) else (none, parts.2)

/-- Branches 4-5 of the extractor (`text`, `value` fallbacks,
`useVoice.ts` lines 236-240). -/
def extractLast (p : Payload) : Option String :=
  match p.text with
  | some x =>
    if jsTrim x ≠ "" then some (jsTrim x) else
      match p.value with
      | some v => if jsTrim v ≠ "" then some (jsTrim v) else none
      | none => none
  | none =>
    match p.value with
    | some v => if jsTrim v ≠ "" then some (jsTrim v) else none
    | none => none

/-- Branches 3-5 of the extractor (`results`, then fallbacks). -/
def extractTail (p : Payload) (supply : List Nat) : Option String :=
  match p.results with
  | some (r :: rs) =>
    let res := resultsBranch (r :: rs) supply
    match res.1 with
    | some s => some s
    | none => extractLast p
  | _ => extractLast p

/-- Branches 2-5 of the extractor (top-level `alternatives`, then the
rest).  `if (best) return best.trim()`: a truthy (non-empty) pick returns
trimmed, a falsy pick falls through. -/
def extractRest (p : Payload) (supply : List Nat) : Option String :=
  match p.alternatives with
  | some (a :: as) =>
    let pick := chooseBestAlternative (a :: as) supply
    match pick.1 with
    | some b => if b ≠ "" then some (jsTrim b) else extractTail p pick.2
    | none => extractTail p pick.2
  | _ => extractTail p supply

/-- `extractTranscriptFromEvent` (`useVoice.ts` lines 147-243).  A `none`
event models a null/undefined payload (`if (!ev) return undefined`).  Field
probes follow the source order: `transcript`, top-level `alternatives`,
`results`, `text`, `value`. -/
def extractTranscriptFromEvent (ev : Option Payload) (supply : List Nat) :
    Option String :=
  match ev with
  | none => none
  | some p =>
    match p.transcript with
    | some t =>
      if jsTrim t ≠ "" then some (jsTrim t) else extractRest p supply
    | none => extractRest p supply

/-! ## Task segmentation (`parseTranscriptionToTasks`, `useVoice.ts` lines
302-319)

The primary splitter regex is `/\s*(?:,|;|\band\b|\bthen\b|\bor\b|&)\s*/i`.
A match must contain one delimiter core (`,` `;` `&` or a standalone word
`and`/`then`/`or` bounded by `\b` on both sides, case-insensitive); the
greedy `\s*` on both sides absorbs the surrounding whitespace, and leftmost
matching means the match surrounding the earliest core wins. -/

/-- Case-insensitive literal-word test at the head of `l`. -/
def startsWithCI (w l : List Char) : Bool := ciEq (l.take w.length) w

/-- Length of a delimiter core starting at the head of `l`, if any.
`prevW` tells whether the character before this position is a word
character (for the leading `\b` of the word delimiters). -/
def delimCoreAt (prevW : Bool) (l : List Char) : Option Nat :=
  match l with
  | ',' :: _ => some 1
  | ';' :: _ => some 1
  | '&' :: _ => some 1
  | _ =>
    if prevW then none
    else if startsWithCI ("and".data) l && boundaryAfter (l.drop 3) then some 3
    else if startsWithCI ("then".data) l && boundaryAfter (l.drop 4) then some 4
    else if startsWithCI ("or".data) l && boundaryAfter (l.drop 2) then some 2
    else none

/-- `/,|;|\band\b|\bthen\b|\bor\b|&/i.test(s)` (the `hadSplitter` test of
`stopListening`, `useVoice.ts` line 491): scan for any delimiter core. -/
def delimExists : Nat → Bool → List Char → Bool
  | 0, _, _ => false
  | fuel + 1, prevW, l =>
    match l with
    | [] => false
    | c :: rest =>
      match delimCoreAt prevW l with
      | some _ => true
      | none => delimExists fuel (isWordChar c) rest

/-- `s.split(/\s*(?:,|;|\band\b|\bthen\b|\bor\b|&)\s*/i)`.  The accumulator
`cur` holds the current piece reversed; at each position a match attempt
consumes the whitespace run, the core and the trailing whitespace run,
closing the piece; otherwise one character is copied. -/
def splitDelimsAux : Nat → List Char → Bool → List Char → List (List Char)
  | 0, cur, _, l => [cur.reverse ++ l]
  | fuel + 1, cur, prevW, l =>
    match l with
    | [] => [cur.reverse]
    | c :: rest =>
      let after := l.dropWhile isWs
      let prevW2 := if l.takeWhile isWs = [] then prevW else false
      match delimCoreAt prevW2 after with
      | some k =>
        let tail0 := after.drop k
        let rem := tail0.dropWhile isWs
        let coreLastW :=
          match (after.take k).getLast? with
          | some c2 => isWordChar c2
          | none => false
        let prevW3 := if tail0.takeWhile isWs = [] then coreLastW else false
        cur.reverse :: splitDelimsAux fuel [] prevW3 rem
      | none => splitDelimsAux fuel (c :: cur) (isWordChar c) rest

/-- Primary split of `parseTranscriptionToTasks`. -/
def splitDelims (l : List Char) : List (List Char) :=
  splitDelimsAux l.length [] false l

/-- If a match of `/\s+and\s+/i` starts at the head of `l`, return the
remainder after the (greedy) match. -/
def wsAndAt (l : List Char) : Option (List Char) :=
  match l with
  | [] => none
  | c :: _ =>
    if isWs c then
      let after := l.dropWhile isWs
      if startsWithCI ("and".data) after then
        let t := after.drop 3
        if t.takeWhile isWs ≠ [] then some (t.dropWhile isWs) else none
      else none
    else none

/-- `s.split(/\s+and\s+/i)` (the fallback split). -/
def splitWsAndAux : Nat → List Char → List Char → List (List Char)
  | 0, cur, l => [cur.reverse ++ l]
  | fuel + 1, cur, l =>
    match l with
    | [] => [cur.reverse]
    | c :: rest =>
      match wsAndAt l with
      | some rem => cur.reverse :: splitWsAndAux fuel [] rem
      | none => splitWsAndAux fuel (c :: cur) rest

/-- Fallback split of `parseTranscriptionToTasks`. -/
def splitWsAnd (l : List Char) : List (List Char) :=
  splitWsAndAux l.length [] l

/-- `parseTranscriptionToTasks` (`useVoice.ts` lines 302-319): split on the
delimiter pattern, trim the parts, drop empties; if exactly one part
remains, retry with the `\s+and\s+` split and keep that result when it
yields more than one non-empty part. -/
def parseTranscriptionToTasks (text : String) : List String :=
  if text = "" || jsTrim text = "" then [] else
  let parts :=
    ((splitDelims text.data).map (fun p => String.mk (trimChars p))).filter
      (fun p => p ≠ "")
  if parts.length = 1 then
    let fallback :=
      ((splitWsAnd text.data).map (fun p => String.mk (trimChars p))).filter
        (fun p => p ≠ "")
    if fallback.length > 1 then fallback else parts
  else parts

/-! ## Similarity dedup (`areSimilar` and the `stopListening` loop,
`useVoice.ts` lines 325-334 and 502-532) -/

/-- `s.split(/\s+/).filter(Boolean)`: the maximal non-whitespace runs. -/
def wordRuns : Nat → List Char → List (List Char)
  | 0, _ => []
  | fuel + 1, l =>
    match l.dropWhile isWs with
    | [] => []
    | c :: rest =>
      (c :: rest.takeWhile (fun x => !isWs x)) ::
        wordRuns fuel (rest.dropWhile (fun x => !isWs x))

/-- The similarity threshold `common / denom >= 0.6` of the source,
evaluated exactly (`6 * denom ≤ 10 * common`).  The JS computation is on
doubles, but for the word counts reachable here (denominators far below
`2^40`) the double quotient is never within rounding distance of `0.6`
without the exact quotient being on the same side, so the two tests
agree. -/
def ratioGeSixTenths (common denom : Nat) : Bool :=
  decide (6 * denom ≤ 10 * common)

/-- `areSimilar` (`useVoice.ts` lines 325-334): word-overlap of the two
lower-cased titles, normalized by the shorter word count. -/
def areSimilar (a b : String) : Bool :=
  let wa := wordRuns a.data.length (lowerStr a).data
  let wb := wordRuns b.data.length (lowerStr b).data
  if wa.length = 0 || wb.length = 0 then false else
  let common := (wb.filter (fun w => wa.contains w)).length
  let denom := min wa.length wb.length
  decide (0 < denom) && ratioGeSixTenths common denom

/-- One iteration of the dedup loop of `stopListening` (lines 505-524):
skip 1-character titles; against the first similar kept title, replace it
when the new one is longer; otherwise keep the new title unless its
lower-cased form was already seen. -/
def dedupInsert (finalCandidates seenLower : List String) (t : String) :
    List String × List String :=
  if t.length ≤ 1 then (finalCandidates, seenLower) else
  let lower := lowerStr t
  match finalCandidates.findIdx? (fun kept => areSimilar kept t) with
  | some idx =>
    let kept := finalCandidates.getD idx ""
    if kept.length < t.length then (finalCandidates.set idx t, seenLower)
    else (finalCandidates, seenLower)
  | none =>
    if seenLower.contains lower then (finalCandidates, seenLower)
    else (finalCandidates ++ [t], seenLower ++ [lower])

/-- The dedup pass over the trimmed, non-empty raw titles. -/
def dedupeCandidates (titlesRaw : List String) : List String :=
  (((titlesRaw.map jsTrim).filter (fun t => t ≠ "")).foldl
    (fun st t => dedupInsert st.1 st.2 t) ([], [])).1

/-- `let longest = xs[0]; for (t of xs) if (t.length > longest.length)
longest = t` — longest by character count, first on ties. -/
def longestOf (l : List String) : String :=
  l.foldl (fun best t => if best.length < t.length then t else best) (l.headD "")

/-! ## Tasks and persistence (`taskStorage.ts`, `useVoice.ts` lines 543-555)
-/

structure Task where
  id : String
  title : String
  description : Option String
  completed : Bool
  createdAt : Nat
deriving DecidableEq

/-- Decimal digit character. -/
def digitChar (d : Nat) : Char :=
  match d with
  | 0 => '0' | 1 => '1' | 2 => '2' | 3 => '3' | 4 => '4'
  | 5 => '5' | 6 => '6' | 7 => '7' | 8 => '8' | _ => '9'

/-- Decimal rendering of a natural number, most significant digit first. -/
def natToDecAux : Nat → Nat → List Char
  | 0, _ => []
  | fuel + 1, n =>
    if n < 10 then [digitChar n] else natToDecAux fuel (n / 10) ++ [digitChar (n % 10)]

/-- JS `n.toString()` for the integer-valued numbers produced by
`Date.now() + i`. -/
def natToDec (n : Nat) : String := String.mk (natToDecAux (n + 1) n)

/-- One new task of the batch save (`useVoice.ts` lines 546-552):
`{ id: (now + i).toString(), title, description: undefined,
completed: false, createdAt: now + i }`. -/
def mkNewTask (now i : Nat) (title : String) : Task :=
  { id := natToDec (now + i), title := title, description := none,
    completed := false, createdAt := now + i }

/-- `finalCandidates.map((title, i) => ...)` with running index. -/
def buildNewTasks (now : Nat) : Nat → List String → List Task
  | _, [] => []
  | i, t :: rest => mkNewTask now i t :: buildNewTasks now (i + 1) rest

/-- `const updated = [...newTasks, ...stored]` — the persisted list after a
successful stop: new tasks prepended, in candidate order. -/
def persistBatch (now : Nat) (finalCandidates : List String) (stored : List Task) :
    List Task :=
  buildNewTasks now 0 finalCandidates ++ stored

/-- `getStoredTasks` (`app/utils/taskStorage.ts` lines 7-10):
`const stored = await AsyncStorage.getItem(KEY); return stored ?
JSON.parse(stored) : []`.  The external store is modelled by the
`Option String` it returns (`none` = no data) and the external `JSON.parse`
by a function that either parses a task list or raises (`Except.error`);
there is no `try`/`catch` in the source, so a raising parse propagates. -/
def getStoredTasks (parse : String → Except String (List Task))
    (stored : Option String) : Except String (List Task) :=
  match stored with
  | none => Except.ok []
  | some s => if s = "" then Except.ok [] else parse s

/-! ## The recognition session state machine (`useVoice.ts` lines 347-423,
440-570, 612-657)

The state collects the react state/refs the retry and stop logic reads and
writes.  `restarts` is a ghost counter of automatic restart invocations,
and `storedTasks` models the persisted task list.  Timer indirection is
flattened: a watchdog timeout callback and the 400ms-delayed restart it
schedules (which runs only while the voice modal is still open) execute as
one step, with no competing events in between. -/

/-- `MAX_RETRIES` (`useVoice.ts` line 45). -/
def MAX_RETRIES : Nat := 3

structure VoiceState where
  listening : Bool
  interimText : String
  finalText : String
  retryCount : Nat
  voiceModalVisible : Bool
  fabOptionsVisible : Bool
  noticeTitle : Option String
  storedTasks : List Task
  restarts : Nat
deriving DecidableEq

/-- The state effects of a successful `startListening` (lines 401-415,
after permission is granted): reset the retry counter, clear both
transcript buffers, set `listening`. -/
def startListeningGranted (s : VoiceState) : VoiceState :=
  { s with retryCount := 0, finalText := "", interimText := "", listening := true }

/-- The watchdog timeout callback (`useVoice.ts` lines 352-378): stop the
recognizer, clear `listening`; when both transcript buffers are empty,
either retry (increment the counter and, if the modal is still open,
re-run `startListening`) or, past `MAX_RETRIES`, surface the no-speech
notice.  With non-empty transcript text nothing else happens. -/
def watchdogFire (s : VoiceState) : VoiceState :=
  let s1 := { s with listening := false }
  if s1.finalText = "" && s1.interimText = "" then
    if s1.retryCount < MAX_RETRIES then
      let s2 := { s1 with retryCount := s1.retryCount + 1 }
      if s2.voiceModalVisible then
        { startListeningGranted s2 with restarts := s2.restarts + 1 }
      else s2
    else { s1 with noticeTitle := some "No speech detected" }
  else s1

/-- The "error" handler for a no-speech error (`useVoice.ts` lines
635-657): with the modal open, same retry policy against the same counter;
retries re-run `startListening`.  With the modal closed the generic
fallback fires (lines 669-673). -/
def errorNoSpeech (s : VoiceState) : VoiceState :=
  if s.voiceModalVisible then
    if s.retryCount < MAX_RETRIES then
      let s2 := { s with retryCount := s.retryCount + 1 }
      { startListeningGranted s2 with restarts := s2.restarts + 1 }
    else { s with listening := false, noticeTitle := some "No speech detected" }
  else { s with listening := false, noticeTitle := some "Speech error" }

/-- `stopListening` (`useVoice.ts` lines 440-570): stop the recognizer,
take the final (else interim) text, clear the buffers and the voice UI;
an empty transcript surfaces a notice; otherwise normalize, segment,
collapse multi-part results when no splitter token is present, dedupe,
collapse again, and either persist the batch (prepended to the stored
tasks) or surface a no-tasks notice.  `now` models `Date.now()`. -/
def stopListening (now : Nat) (s : VoiceState) : VoiceState :=
  let transcript := jsTrim (if s.finalText ≠ "" then s.finalText else s.interimText)
  let s1 := { s with listening := false, interimText := "", finalText := "",
                     voiceModalVisible := false, fabOptionsVisible := false }
  if transcript = "" then { s1 with noticeTitle := some "No speech detected" } else
  let normalized := normalizeTranscript transcript
  let titlesRaw := parseTranscriptionToTasks normalized
  let hadSplitter := delimExists normalized.data.length false normalized.data
  let titlesRaw2 :=
    if 1 < titlesRaw.length && !hadSplitter then [longestOf titlesRaw] else titlesRaw
  let cands := dedupeCandidates titlesRaw2
  let finalCandidates :=
    if 1 < cands.length && !hadSplitter then [longestOf cands] else cands
  if finalCandidates = [] then { s1 with noticeTitle := some "No tasks found" }
  else { s1 with storedTasks := persistBatch now finalCandidates s.storedTasks,
                 noticeTitle := some "Added tasks" }

/-! ## Spec-side definitions

These definitions follow the wording of the specification (not the code);
they exist to be compared against the code-derived definitions above when a
claim asserts that the code realises the spec's description. -/

/-- Spec §4.1: the maximum among the confidences that are present. -/
def specMaxConf (alts : List Alt) : Option ℚ :=
  (alts.filterMap Alt.confidence).foldl
    (fun m c =>
      match m with
      | none => some c
      | some b => if b < c then some c else some b)
    none

/-- Spec §4.1 selection with the tie policy as written: with confidences
present, the strictly-highest-confidence alternative wins and ties among
the maximal ones are broken by a random pick *among the tied set*; with no
confidences, a random pick among all alternatives.  Random picks consume
the head of the supply. -/
def specAltSelect (alts : List Alt) (supply : List Nat) :
    Option String × List Nat :=
  match specMaxConf alts with
  | some m =>
    let tied := alts.filter (fun a => a.confidence = some m)
    if tied.length = 1 then ((tied.get? 0).bind altText, supply)
    else
      match supply with
      | r :: rest => ((tied.get? (r % tied.length)).bind altText, rest)
      | [] => ((tied.get? 0).bind altText, [])
  | none =>
    if alts = [] then (none, supply) else
    match supply with
    | r :: rest => ((alts.get? (r % alts.length)).bind altText, rest)
    | [] => ((alts.get? 0).bind altText, [])

/-- Spec §4.1 tie case in isolation: the random pick among the tied set for
a given draw (used to exhibit what the spec's tie policy would return). -/
def specTiedPick (alts : List Alt) (draw : Nat) : Option String :=
  match specMaxConf alts with
  | some m =>
    let tied := alts.filter (fun a => a.confidence = some m)
    (tied.get? (draw % tied.length)).bind altText
  | none => (alts.get? (draw % alts.length)).bind altText

/-- Spec §4.2 rule 3, fallbacks (b) then (c) of one segment. -/
def specSegmentFallback (seg : ResultSegment) (supply : List Nat) :
    Option String × List Nat :=
  match seg.transcript with
  | some t =>
    if jsTrim t ≠ "" then (some (jsTrim t), supply) else
      match seg.text with
      | some x => if jsTrim x ≠ "" then (some (jsTrim x), supply) else (none, supply)
      | none => (none, supply)
  | none =>
    match seg.text with
    | some x => if jsTrim x ≠ "" then (some (jsTrim x), supply) else (none, supply)
    | none => (none, supply)

/-- Spec §4.2 rule 3, one segment: resolve via (a) the segment's
`alternatives` through the AlternativeSelector, else (b) its `transcript`,
else (c) its `text`; resolutions are trimmed and empty means absent. -/
def specSegmentResolve (seg : ResultSegment) (supply : List Nat) :
    Option String × List Nat :=
  match seg.alternatives with
  | some (a :: as) =>
    let pick := specAltSelect (a :: as) supply
    match pick.1 with
    | some b =>
      if jsTrim b ≠ "" then (some (jsTrim b), pick.2)
      else specSegmentFallback seg pick.2
    | none => specSegmentFallback seg pick.2
  | _ => specSegmentFallback seg supply

/-- Spec §4.2 rule 3: the resolved per-segment strings, in segment order
(null segments contribute nothing). -/
def specSegmentsParts (supply : List Nat) :
    List (Option ResultSegment) → List String × List Nat
  | [] => ([], supply)
  | none :: rs => specSegmentsParts supply rs
  | some r :: rs =>
    let res := specSegmentResolve r supply
    match res.1 with
    | some s =>
      let pr := specSegmentsParts res.2 rs
      (s :: pr.1, pr.2)
    | none => specSegmentsParts res.2 rs

/-- Spec §4.2 rule 3: the per-segment strings joined with single spaces. -/
def specSegmentsJoin (rs : List (Option ResultSegment)) (supply : List Nat) :
    String :=
  jsTrim (joinParts (specSegmentsParts supply rs).1)

/-- First index (with its confidence) attaining the maximum confidence of
the list, scanning from absolute index `i`: the recursive characterization
of "the first alternative with the strictly highest confidence" used to
describe `chooseBestAlternative`'s actual tie behavior. -/
def firstMaxPair : List Alt → Nat → Option (Nat × ℚ)
  | [], _ => none
  | a :: rest, i =>
    match a.confidence with
    | none => firstMaxPair rest (i + 1)
    | some c =>
      match firstMaxPair rest (i + 1) with
      | none => some (i, c)
      | some (j, m) => if c < m then some (j, m) else some (i, c)

/-- The spec's postcondition on normalized output (§4.3): scanning the
token list left to right, no position starts an immediately repeated 3-, 2-
or 1-token phrase (case-insensitive).  `ngramMatch n` is exactly the
window comparison the normalizer itself uses. -/
def noRepeatB : List (List Char) → Bool
  | [] => true
  | w :: rest =>
    !(ngramMatch 3 (w :: rest)) && !(ngramMatch 2 (w :: rest)) &&
      !(ngramMatch 1 (w :: rest)) && noRepeatB rest

/-- Minimal model of the external `JSON.parse` used by `getStoredTasks`:
parses the literal empty array and raises a syntax error on everything
else, which is enough to exhibit both a successful parse and a raising
one. -/
def jsonParseModel (s : String) : Except String (List Task) :=
  if s = "[]" then Except.ok [] else Except.error "SyntaxError: Unexpected token"

/-! ## Shared concrete instances used by the claim theorems -/

/-- A listening session that has already collected a final transcript. -/
def demoState : VoiceState :=
  ⟨true, "", "buy milk", 0, true, false, none, [], 0⟩

/-- A freshly started, still-open session with nothing captured. -/
def freshOpenSession : VoiceState :=
  ⟨true, "", "", 0, true, false, none, [], 0⟩

/-- A `results` payload whose two segments both carry numeric confidences. -/
def confSeg1 : ResultSegment :=
  ⟨some [⟨some "buy milk", none, some (mkRat 9 10)⟩], none, none, none⟩

def confSeg2 : ResultSegment :=
  ⟨some [⟨some "call mom", none, some (mkRat 4 5)⟩], none, none, none⟩

def confPayload : Payload :=
  ⟨none, none, some [some confSeg1, some confSeg2], none, none⟩

/-- Two alternatives tied at the maximal confidence 0.5. -/
def tiedAlts : List Alt :=
  [⟨some "a", none, some (mkRat 1 2)⟩, ⟨some "b", none, some (mkRat 1 2)⟩]

/-! ## Claim C1 — idempotence of the normalizer (corrected) -/

/-- C1 counterexample: `normalizeTranscript` is not idempotent.  On
`"buy milk buy milk buy milk"` the n-gram scan collapses the first two of
the three copies of the bigram and re-emits the remainder, leaving
`"buy milk buy milk"`, which a second application collapses further to
`"buy milk"`. -/
theorem C1_normalize_not_idempotent :
    normalizeTranscript "buy milk buy milk buy milk" = "buy milk buy milk" ∧
    normalizeTranscript (normalizeTranscript "buy milk buy milk buy milk") = "buy milk" ∧
    normalizeTranscript (normalizeTranscript "buy milk buy milk buy milk") ≠
      normalizeTranscript "buy milk buy milk buy milk" :=
  ⟨by decide, by decide, by decide⟩

/-- C1 (amended): `normalizeTranscript` is idempotent exactly on its fixed
points — if one application leaves `txt` unchanged then so does a second —
and it is idempotent on the spec's own examples; full idempotence fails
(see the counterexample). -/
theorem C1_normalize_idempotent_on_fixpoints :
    (∀ txt : String, normalizeTranscript txt = txt →
      normalizeTranscript (normalizeTranscript txt) = normalizeTranscript txt) ∧
    normalizeTranscript (normalizeTranscript "to to to the store") =
      normalizeTranscript "to to to the store" ∧
    normalizeTranscript (normalizeTranscript "buy milk buy milk") =
      normalizeTranscript "buy milk buy milk" := by
  refine ⟨?_, by decide, by decide⟩
  intro txt h
  rw [h]
  exact h

/-- C1 witness: the amended statement applied at `"buy milk"`, which is a
fixed point of the normalizer. -/
theorem C1_normalize_idempotent_on_fixpoints_witness :
    normalizeTranscript "buy milk" = "buy milk" ∧
    normalizeTranscript (normalizeTranscript "buy milk") =
      normalizeTranscript "buy milk" :=
  ⟨by decide, C1_normalize_idempotent_on_fixpoints.1 "buy milk" (by decide)⟩

/-! ## Claim C2 — the four-case incremental merge (confirmed) -/

/-- C2: the merge of a previous final transcript with a new chunk follows
the four cases of the "result" handler — empty previous yields the chunk, a
chunk extending the previous (prefix) replaces it, a chunk the previous
already ends with is a no-op, and otherwise the chunk is appended after a
single space — with the spec's concrete examples. -/
theorem C2_fold_contract :
    foldTranscript "" "buy milk" = "buy milk" ∧
    foldTranscript "buy" "buy milk" = "buy milk" ∧
    foldTranscript "buy milk" "milk" = "buy milk" ∧
    foldTranscript "buy milk" "call mom" = "buy milk call mom" ∧
    (∀ t : String, foldTranscript "" t = t) ∧
    (∀ prev t : String, prev ≠ "" → jsStartsWith t prev = true →
      foldTranscript prev t = t) ∧
    (∀ prev t : String, prev ≠ "" → jsStartsWith t prev = false →
      jsEndsWith prev t = true → foldTranscript prev t = prev) ∧
    (∀ prev t : String, prev ≠ "" → jsStartsWith t prev = false →
      jsEndsWith prev t = false → foldTranscript prev t = prev ++ " " ++ t) := by
  refine ⟨by decide, by decide, by decide, by decide, ?_, ?_, ?_, ?_⟩
  · intro t; simp [foldTranscript]
  · intro prev t h1 h2; simp [foldTranscript, h1, h2]
  · intro prev t h1 h2 h3; simp [foldTranscript, h1, h2, h3]
  · intro prev t h1 h2 h3; simp [foldTranscript, h1, h2, h3]

/-- C2 witness: each conditional case of the contract discharged at the
spec's concrete example inputs. -/
theorem C2_fold_contract_witness :
    (("buy" : String) ≠ "" ∧ jsStartsWith "buy milk" "buy" = true ∧
      foldTranscript "buy" "buy milk" = "buy milk") ∧
    (("buy milk" : String) ≠ "" ∧ jsStartsWith "milk" "buy milk" = false ∧
      jsEndsWith "buy milk" "milk" = true ∧
      foldTranscript "buy milk" "milk" = "buy milk") ∧
    (("buy milk" : String) ≠ "" ∧ jsStartsWith "call mom" "buy milk" = false ∧
      jsEndsWith "buy milk" "call mom" = false ∧
      foldTranscript "buy milk" "call mom" = "buy milk call mom") :=
  ⟨⟨by decide, by decide,
      C2_fold_contract.2.2.2.2.2.1 "buy" "buy milk" (by decide) (by decide)⟩,
    ⟨by decide, by decide, by decide,
      C2_fold_contract.2.2.2.2.2.2.1 "buy milk" "milk" (by decide) (by decide) (by decide)⟩,
    ⟨by decide, by decide, by decide,
      C2_fold_contract.2.2.2.2.2.2.2 "buy milk" "call mom" (by decide) (by decide) (by decide)⟩⟩

/-! ## Claim C3 — watchdog with non-empty transcript (corrected) -/

/-- C3 counterexample: when the watchdog fires on a session holding the
final transcript `"buy milk"`, nothing of the stop pipeline runs — no task
is persisted, no notice is shown and the buffer is retained — whereas a
manual stop of the same session persists the task and surfaces the
"Added tasks" notice. -/
theorem C3_watchdog_skips_stop_pipeline :
    (watchdogFire demoState).storedTasks = [] ∧
    (stopListening 1000 demoState).storedTasks =
      [⟨"1000", "buy milk", none, false, 1000⟩] ∧
    (watchdogFire demoState).storedTasks ≠ (stopListening 1000 demoState).storedTasks ∧
    (watchdogFire demoState).finalText = "buy milk" ∧
    (watchdogFire demoState).noticeTitle = none ∧
    (stopListening 1000 demoState).noticeTitle = some "Added tasks" :=
  ⟨by decide, by decide, by decide, by decide, by decide, by decide⟩

/-- C3 (amended): when the watchdog fires while transcript text (interim or
final) is non-empty, the only state effect is that listening stops; the
buffers, retry counter, stored tasks and notices are all left untouched and
no extraction/persistence pipeline runs — the collected text awaits a
manual stop. -/
theorem C3_watchdog_nonempty_only_stops :
    ∀ s : VoiceState, (s.finalText ≠ "" ∨ s.interimText ≠ "") →
      watchdogFire s = { s with listening := false } := by
  intro s h
  have h1 : (decide (s.finalText = "") && decide (s.interimText = "")) = false := by
    rcases h with h | h <;> simp [h]
  simp only [watchdogFire]
  simp [h1]

/-- C3 witness: the amended statement at the concrete session holding
`"buy milk"`. -/
theorem C3_watchdog_nonempty_only_stops_witness :
    (demoState.finalText ≠ "" ∨ demoState.interimText ≠ "") ∧
    watchdogFire demoState = { demoState with listening := false } :=
  ⟨Or.inl (by decide),
    C3_watchdog_nonempty_only_stops demoState (Or.inl (by decide))⟩

/-! ## Claim C6 — the retry bound (code bug) -/

/-- C6: the retry bound of 3 is broken in the code.  Every automatic
restart re-runs `startListening`, which resets `retryCount` to 0, so from a
fresh open session `n` consecutive no-speech outcomes — watchdog timeouts
or no-speech error events, which share the counter — perform `n` automatic
restarts for every `n`; in particular a fourth timeout still restarts and
the terminal "No speech detected" notice is never surfaced, contradicting
the documented `MAX_RETRIES` policy. -/
theorem C6_watchdog_retry_counter_reset_loop :
    (∀ n : Nat, watchdogFire^[n] freshOpenSession =
      { freshOpenSession with restarts := n }) ∧
    (∀ n : Nat, errorNoSpeech^[n] freshOpenSession =
      { freshOpenSession with restarts := n }) ∧
    (watchdogFire^[4] freshOpenSession).restarts = 4 ∧
    (watchdogFire^[4] freshOpenSession).noticeTitle = none ∧
    (watchdogFire^[4] freshOpenSession).retryCount = 0 := by
  have step : ∀ m : Nat, watchdogFire { freshOpenSession with restarts := m } =
      { freshOpenSession with restarts := m + 1 } := fun m => rfl
  have main : ∀ n : Nat, watchdogFire^[n] freshOpenSession =
      { freshOpenSession with restarts := n } := by
    intro n
    induction n with
    | zero => rfl
    | succ k ih => rw [Function.iterate_succ_apply', ih]; exact step k
  have stepE : ∀ m : Nat, errorNoSpeech { freshOpenSession with restarts := m } =
      { freshOpenSession with restarts := m + 1 } := fun m => rfl
  have mainE : ∀ n : Nat, errorNoSpeech^[n] freshOpenSession =
      { freshOpenSession with restarts := n } := by
    intro n
    induction n with
    | zero => rfl
    | succ k ih => rw [Function.iterate_succ_apply', ih]; exact stepE k
  exact ⟨main, mainE, by rw [main 4], by rw [main 4]; rfl, by rw [main 4]; rfl⟩

/-! ## Claim C8 — persistence load on missing/corrupt data (corrected) -/

/-- C8 counterexample: `getStoredTasks` has no `try`/`catch`, so a raising
`JSON.parse` propagates to the caller instead of yielding the empty
list. -/
theorem C8_parse_error_propagates :
    getStoredTasks jsonParseModel (some "not json") =
      Except.error "SyntaxError: Unexpected token" ∧
    getStoredTasks jsonParseModel (some "not json") ≠ Except.ok [] :=
  ⟨rfl, by simp [getStoredTasks, jsonParseModel]⟩

/-- C8 (amended): the load returns the empty list when no data is stored
(absent or empty-string value, both falsy in the source's guard), but a
parse failure on stored data propagates as an error to the caller. -/
theorem C8_load_empty_or_raises :
    (∀ parse : String → Except String (List Task),
      getStoredTasks parse none = Except.ok []) ∧
    (∀ parse : String → Except String (List Task),
      getStoredTasks parse (some "") = Except.ok []) ∧
    (∀ (parse : String → Except String (List Task)) (s e : String),
      s ≠ "" → parse s = Except.error e →
      getStoredTasks parse (some s) = Except.error e) := by
  refine ⟨fun _ => rfl, fun _ => rfl, ?_⟩
  intro parse s e hs hp
  simp [getStoredTasks, hs, hp]

/-- C8 witness: the propagation clause at the concrete raising parse. -/
theorem C8_load_empty_or_raises_witness :
    ("not json" : String) ≠ "" ∧
    jsonParseModel "not json" = Except.error "SyntaxError: Unexpected token" ∧
    getStoredTasks jsonParseModel (some "not json") =
      Except.error "SyntaxError: Unexpected token" :=
  ⟨by decide, rfl,
    C8_load_empty_or_raises.2.2 jsonParseModel "not json" _ (by decide) rfl⟩

/-! ## Claim C9 — the normalizer's output postcondition (corrected; the
counterexample here, the amended theorem after the supporting lemmas) -/

/-- C9 counterexample: the normalizer's output can contain an immediately
repeated 2-token phrase — on `"buy milk buy milk buy milk"` the output is
`"buy milk buy milk"`, whose token list starts with a repeated bigram. -/
theorem C9_output_can_repeat_phrase :
    normalizeTranscript "buy milk buy milk buy milk" = "buy milk buy milk" ∧
    noRepeatB (splitSp (normalizeTranscript "buy milk buy milk buy milk").data) = false :=
  ⟨by decide, by decide⟩

/-! ## Claim C10 — extractor totality on absent payloads (confirmed) -/

/-- C10: a null/undefined event payload makes the extractor return absent
(`none`) rather than fail, for every state of the random supply. -/
theorem C10_extractor_absent_payload :
    ∀ supply : List Nat, extractTranscriptFromEvent none supply = none :=
  fun _ => rfl

/-! ## Claims C4 and C5 — counterexamples (the amended theorems follow the
supporting lemmas) -/

/-- C4 counterexample: on a `results` payload whose segments carry numeric
confidences, the extractor returns the single highest-confidence flattened
alternative (`"buy milk"`, confidence 0.9) instead of the per-segment join
(`"buy milk call mom"`) required by the claim, even though that join is
non-empty. -/
theorem C4_confident_results_not_joined :
    extractTranscriptFromEvent (some confPayload) [] = some "buy milk" ∧
    specSegmentsJoin [some confSeg1, some confSeg2] [] = "buy milk call mom" ∧
    (some "buy milk" : Option String) ≠ some "buy milk call mom" :=
  ⟨by decide, by decide, by decide⟩

/-- C5 counterexample: on two alternatives tied at the maximal confidence,
`chooseBestAlternative` deterministically returns the first one (`"a"`) —
the random supply is not even consulted — whereas the claimed uniform
choice among the tied set returns `"b"` for draw 1. -/
theorem C5_tie_not_random :
    (chooseBestAlternative tiedAlts [1]).1 = some "a" ∧
    specTiedPick tiedAlts 1 = some "b" ∧
    (some "a" : Option String) ≠ some "b" :=
  ⟨by decide, by decide, by decide⟩

/-! ## Decimal rendering is injective (supports C7) -/

/-- Value of a decimal digit character. -/
def digitVal (c : Char) : Nat := c.toNat - 48

/-- Decode a decimal digit string (most significant first). -/
def decodeDec (l : List Char) : Nat :=
  l.foldl (fun a c => 10 * a + digitVal c) 0

theorem digitVal_digitChar (d : Nat) (hd : d < 10) : digitVal (digitChar d) = d := by
  interval_cases d <;> rfl

theorem decodeDec_append_digit (xs : List Char) (c : Char) :
    decodeDec (xs ++ [c]) = 10 * decodeDec xs + digitVal c := by
  simp [decodeDec, List.foldl_append]

theorem decodeDec_natToDecAux :
    ∀ fuel n : Nat, n < fuel → decodeDec (natToDecAux fuel n) = n := by
  intro fuel
  induction fuel with
  | zero => intro n h; omega
  | succ k ih =>
    intro n h
    by_cases h10 : n < 10
    · simp [natToDecAux, h10, decodeDec, digitVal_digitChar n h10]
    · have hdiv : n / 10 < k := by omega
      simp only [natToDecAux, if_neg h10, decodeDec_append_digit, ih (n / 10) hdiv,
        digitVal_digitChar (n % 10) (by omega)]
      omega

theorem natToDec_injective (m n : Nat) (h : natToDec m = natToDec n) : m = n := by
  have hm := decodeDec_natToDecAux (m + 1) m (by omega)
  have hn := decodeDec_natToDecAux (n + 1) n (by omega)
  have hdata : natToDecAux (m + 1) m = natToDecAux (n + 1) n :=
    congrArg String.data h
  rw [hdata, hn] at hm
  omega

/-! ## Claim C7 — persistence ordering of a stop batch (confirmed) -/

/-- C7: for stored tasks `[A, B]` and surviving candidates `[x, y]`, the
persisted list is the two new tasks prepended in candidate order; the new
tasks' `createdAt` values are `now` and `now + 1` (strictly increasing with
the index), and their ids — the decimal renderings of those offsets from
the single captured `now` — are distinct. -/
theorem C7_persist_prepend_ordering :
    ∀ (now : Nat) (x y : String) (A B : Task),
      persistBatch now [x, y] [A, B] = [mkNewTask now 0 x, mkNewTask now 1 y, A, B] ∧
      (mkNewTask now 0 x).createdAt < (mkNewTask now 1 y).createdAt ∧
      (mkNewTask now 0 x).id = natToDec now ∧
      (mkNewTask now 1 y).id = natToDec (now + 1) ∧
      (mkNewTask now 0 x).id ≠ (mkNewTask now 1 y).id := by
  intro now x y A B
  refine ⟨rfl, by simp [mkNewTask], by simp [mkNewTask], rfl, ?_⟩
  intro h
  have := natToDec_injective _ _ h
  omega

/-! ## Characterization of `chooseBestAlternative`'s loop (supports C5) -/

theorem chooseLoop_some (l : List Alt) : ∀ (i j : Nat) (b : ℚ),
    chooseLoop l i ⟨j, some b, false⟩ =
      (match firstMaxPair l i with
       | none => (⟨j, some b, false⟩ : ChooseState)
       | some (k, m) => if b < m then ⟨k, some m, false⟩ else ⟨j, some b, false⟩) := by
  induction l with
  | nil => intro i j b; rfl
  | cons a rest ih =>
    intro i j b
    cases ha : a.confidence with
    | none =>
      simp only [chooseLoop, ha, firstMaxPair]
      exact ih (i + 1) j b
    | some c =>
      simp only [chooseLoop, ha, firstMaxPair, gt_iff_lt]
      rw [ih (i + 1) i c, ih (i + 1) j b]
      cases hf : firstMaxPair rest (i + 1) with
      | none =>
        by_cases hbc : b < c
        · simp [hbc]
        · simp [hbc]
      | some km =>
        obtain ⟨k, m⟩ := km
        by_cases hbc : b < c
        · by_cases hcm : c < m
          · simp [hbc, hcm, show b < m from lt_trans hbc hcm]
          · simp [hbc, hcm]
        · by_cases hcm : c < m
          · simp [hbc, hcm]
          · have hbm : ¬ b < m := fun h => hbc (lt_of_lt_of_le h (le_of_not_lt hcm))
            simp [hbc, hcm, hbm]

theorem chooseLoop_init (l : List Alt) : ∀ i : Nat,
    chooseLoop l i ⟨0, none, true⟩ =
      (match firstMaxPair l i with
       | none => (⟨0, none, true⟩ : ChooseState)
       | some (k, m) => ⟨k, some m, false⟩) := by
  induction l with
  | nil => intro i; rfl
  | cons a rest ih =>
    intro i
    cases ha : a.confidence with
    | none =>
      simp only [chooseLoop, ha, firstMaxPair]
      exact ih (i + 1)
    | some c =>
      simp only [chooseLoop, ha, firstMaxPair]
      rw [chooseLoop_some rest (i + 1) i c]
      cases hf : firstMaxPair rest (i + 1) with
      | none => simp
      | some km =>
        obtain ⟨k, m⟩ := km
        by_cases hcm : c < m
        · simp [hcm]
        · simp [hcm]

/-- `firstMaxPair` returning `none` means no alternative carries a
confidence. -/
theorem firstMaxPair_none (l : List Alt) : ∀ i : Nat,
    firstMaxPair l i = none → ∀ a ∈ l, a.confidence = none := by
  induction l with
  | nil => intro i _ a ha; cases ha
  | cons a rest ih =>
    intro i h b hb
    cases ha : a.confidence with
    | none =>
      simp only [firstMaxPair, ha] at h
      rcases List.mem_cons.mp hb with hb | hb
      · rw [hb]; exact ha
      · exact ih (i + 1) h b hb
    | some c =>
      exfalso
      cases hf : firstMaxPair rest (i + 1) with
      | none => simp [firstMaxPair, ha, hf] at h
      | some km =>
        obtain ⟨k, m⟩ := km
        simp only [firstMaxPair, ha, hf] at h
        by_cases hcm : c < m <;> simp [hcm] at h

/-- `firstMaxPair` finds the first index attaining the maximum confidence:
the index is in range (shifted by the start index `i`), it carries the
returned confidence, nothing is larger and everything strictly before is
strictly smaller. -/
theorem firstMaxPair_spec (l : List Alt) : ∀ (i k : Nat) (m : ℚ),
    firstMaxPair l i = some (k, m) →
      i ≤ k ∧ k < i + l.length ∧
      (∃ a, l.get? (k - i) = some a ∧ a.confidence = some m) ∧
      (∀ d a c, l.get? d = some a → a.confidence = some c → c ≤ m) ∧
      (∀ d a c, d + i < k → l.get? d = some a → a.confidence = some c → c < m) := by
  induction l with
  | nil => intro i k m h; cases h
  | cons a rest ih =>
    intro i k m h
    cases ha : a.confidence with
    | none =>
      simp only [firstMaxPair, ha] at h
      obtain ⟨h1, h2, ⟨w, hw1, hw2⟩, h4, h5⟩ := ih (i + 1) k m h
      refine ⟨by omega, by simp [List.length_cons]; omega, ?_, ?_, ?_⟩
      · refine ⟨w, ?_, hw2⟩
        have hk : k - i = (k - (i + 1)) + 1 := by omega
        rw [hk]
        simpa using hw1
      · intro d b c hd hc
        cases d with
        | zero => simp at hd; rw [hd] at ha; rw [ha] at hc; cases hc
        | succ d2 => exact h4 d2 b c (by simpa using hd) hc
      · intro d b c hdk hd hc
        cases d with
        | zero => simp at hd; rw [hd] at ha; rw [ha] at hc; cases hc
        | succ d2 => exact h5 d2 b c (by omega) (by simpa using hd) hc
    | some c =>
      cases hf : firstMaxPair rest (i + 1) with
      | none =>
        simp only [firstMaxPair, ha, hf, Option.some.injEq, Prod.mk.injEq] at h
        obtain ⟨hk, hm⟩ := h
        subst hk; subst hm
        have hrest := firstMaxPair_none rest (i + 1) hf
        refine ⟨le_refl i, by simp, ⟨a, by simp, ha⟩, ?_, ?_⟩
        · intro d b c2 hd hc
          cases d with
          | zero => simp at hd; rw [hd] at ha; rw [ha] at hc; cases hc; exact le_refl _
          | succ d2 =>
            exfalso
            have hb : b ∈ rest := List.get?_mem (by simpa using hd)
            rw [hrest b hb] at hc; cases hc
        · intro d b c2 hdk _ _; omega
      | some km =>
        obtain ⟨k2, m2⟩ := km
        simp only [firstMaxPair, ha, hf] at h
        obtain ⟨g1, g2, ⟨w, hw1, hw2⟩, g4, g5⟩ := ih (i + 1) k2 m2 hf
        by_cases hcm : c < m2
        · rw [if_pos hcm] at h
          simp only [Option.some.injEq, Prod.mk.injEq] at h
          obtain ⟨hk, hm⟩ := h
          subst hk; subst hm
          refine ⟨by omega, by simp [List.length_cons]; omega, ?_, ?_, ?_⟩
          · refine ⟨w, ?_, hw2⟩
            have hk2 : k2 - i = (k2 - (i + 1)) + 1 := by omega
            rw [hk2]; simpa using hw1
          · intro d b c2 hd hc
            cases d with
            | zero =>
              simp at hd; rw [hd] at ha; rw [ha] at hc
              cases hc; exact le_of_lt hcm
            | succ d2 => exact g4 d2 b c2 (by simpa using hd) hc
          · intro d b c2 hdk hd hc
            cases d with
            | zero =>
              simp at hd; rw [hd] at ha; rw [ha] at hc
              cases hc; exact hcm
            | succ d2 => exact g5 d2 b c2 (by omega) (by simpa using hd) hc
        · rw [if_neg hcm] at h
          simp only [Option.some.injEq, Prod.mk.injEq] at h
          obtain ⟨hk, hm⟩ := h
          subst hk; subst hm
          refine ⟨le_refl i, by simp, ⟨a, by simp, ha⟩, ?_, ?_⟩
          · intro d b c2 hd hc
            cases d with
            | zero => simp at hd; rw [hd] at ha; rw [ha] at hc; cases hc; exact le_refl _
            | succ d2 =>
              have := g4 d2 b c2 (by simpa using hd) hc
              exact le_trans this (le_of_not_lt hcm)
          · intro d b c2 hdk _ _; omega

/-! ## Claim C5 — alternative selection (corrected; amended theorem) -/

/-- C5 (amended): with at least one numeric confidence present,
`chooseBestAlternative` returns the text of the *first* alternative
attaining the maximum confidence (deterministically — the random supply is
left untouched), where "first maximum" is witnessed by the bound and
strictly-before properties; with no confidence present and a non-empty
list, it returns the alternative at the random index draw over the whole
list. -/
theorem C5_first_max_or_random :
    (∀ (alts : List Alt) (supply : List Nat) (k : Nat) (m : ℚ),
      firstMaxPair alts 0 = some (k, m) →
      chooseBestAlternative alts supply = ((alts.get? k).bind altText, supply) ∧
      k < alts.length ∧
      (∃ a, alts.get? k = some a ∧ a.confidence = some m) ∧
      (∀ d a c, alts.get? d = some a → a.confidence = some c → c ≤ m) ∧
      (∀ d a c, d < k → alts.get? d = some a → a.confidence = some c → c < m)) ∧
    (∀ (alts : List Alt) (r : Nat) (rest : List Nat),
      alts ≠ [] → firstMaxPair alts 0 = none →
      chooseBestAlternative alts (r :: rest) =
        ((alts.get? (r % alts.length)).bind altText, rest)) := by
  constructor
  · intro alts supply k m hf
    obtain ⟨h1, h2, h3, h4, h5⟩ := firstMaxPair_spec alts 0 k m hf
    have hne : alts ≠ [] := by
      intro he; rw [he] at hf; cases hf
    have hloop : chooseLoop alts 0 ⟨0, none, true⟩ = ⟨k, some m, false⟩ := by
      rw [chooseLoop_init alts 0, hf]
    refine ⟨?_, by omega, by simpa using h3, h4,
      fun d a c hdk hd hc => h5 d a c (by omega) hd hc⟩
    simp only [chooseBestAlternative, if_neg hne, hloop]
    rfl
  · intro alts r rest hne hf
    have hloop : chooseLoop alts 0 ⟨0, none, true⟩ = ⟨0, none, true⟩ := by
      rw [chooseLoop_init alts 0, hf]
    simp only [chooseBestAlternative, if_neg hne, hloop]
    rfl

/-- C5 witness: the confident clause at the spec's example
`[{t:"a", c:0.2}, {t:"b", c:0.9}]` (the selector returns `"b"`), and the
no-confidence clause on two bare alternatives with draw 1 (the selector
returns the drawn `"b"`). -/
theorem C5_first_max_or_random_witness :
    (firstMaxPair [⟨some "a", none, some (mkRat 1 5)⟩, ⟨some "b", none, some (mkRat 9 10)⟩] 0 =
      some (1, mkRat 9 10) ∧
     chooseBestAlternative [⟨some "a", none, some (mkRat 1 5)⟩, ⟨some "b", none, some (mkRat 9 10)⟩] [7] =
      (some "b", [7])) ∧
    (([⟨some "a", none, none⟩, ⟨some "b", none, none⟩] : List Alt) ≠ [] ∧
     firstMaxPair [⟨some "a", none, none⟩, ⟨some "b", none, none⟩] 0 = none ∧
     chooseBestAlternative [⟨some "a", none, none⟩, ⟨some "b", none, none⟩] [1, 5] =
      (some "b", [5])) :=
  ⟨⟨by decide,
      (C5_first_max_or_random.1
        [⟨some "a", none, some (mkRat 1 5)⟩, ⟨some "b", none, some (mkRat 9 10)⟩]
        [7] 1 (mkRat 9 10) (by decide)).1⟩,
    ⟨by decide, by decide,
      C5_first_max_or_random.2
        [⟨some "a", none, none⟩, ⟨some "b", none, none⟩] 1 [5] (by decide) (by decide)⟩⟩

/-! ## The no-confidence results path matches the spec's join (supports C4)
-/

/-- An alternative is well-formed when it resolves to a string that is
non-empty after trimming (so any random pick is truthy on both the code
side and the spec side). -/
def altOk (a : Alt) : Bool :=
  match altText a with
  | some s => decide (jsTrim s ≠ "")
  | none => false

/-- Every segment's alternative list (when present and non-empty) consists
of well-formed alternatives. -/
def segsWellFormed : List (Option ResultSegment) → Bool
  | [] => true
  | none :: rs => segsWellFormed rs
  | some r :: rs =>
    (match r.alternatives with
     | some (a :: as) => (a :: as).all altOk
     | _ => true) && segsWellFormed rs

/-- No alternative of any segment carries a numeric confidence. -/
def segsNoConf : List (Option ResultSegment) → Bool
  | [] => true
  | none :: rs => segsNoConf rs
  | some r :: rs =>
    (match r.alternatives with
     | some (a :: as) => (a :: as).all (fun a2 => a2.confidence.isNone)
     | _ => r.confidence.isNone) && segsNoConf rs

theorem allNone_firstMaxPair (l : List Alt) : ∀ i : Nat,
    l.all (fun a => a.confidence.isNone) = true → firstMaxPair l i = none := by
  induction l with
  | nil => intro i _; rfl
  | cons a rest ih =>
    intro i h
    rw [List.all_cons, Bool.and_eq_true] at h
    have ha : a.confidence = none := Option.isNone_iff_eq_none.mp h.1
    simp only [firstMaxPair, ha]
    exact ih (i + 1) h.2

theorem allNone_specMaxConf (l : List Alt)
    (h : l.all (fun a => a.confidence.isNone) = true) : specMaxConf l = none := by
  have : l.filterMap Alt.confidence = [] := by
    rw [List.filterMap_eq_nil_iff]
    intro a ha
    exact Option.isNone_iff_eq_none.mp ((List.all_eq_true.mp h) a ha)
  simp [specMaxConf, this]

/-- With no confidences, `chooseBestAlternative` reduces to the random
index pick. -/
theorem chooseBest_no_conf (alts : List Alt) (hne : alts ≠ [])
    (hf : firstMaxPair alts 0 = none) (supply : List Nat) :
    chooseBestAlternative alts supply =
      (match supply with
       | r :: rest => ((alts.get? (r % alts.length)).bind altText, rest)
       | [] => ((alts.get? 0).bind altText, [])) := by
  have hloop : chooseLoop alts 0 ⟨0, none, true⟩ = ⟨0, none, true⟩ := by
    rw [chooseLoop_init alts 0, hf]
  simp only [chooseBestAlternative, if_neg hne, hloop]
  rfl

theorem jsTrim_ne_of_trim_ne (s : String) (h : jsTrim s ≠ "") : s ≠ "" := by
  intro he
  rw [he] at h
  exact h rfl

/-- A well-formed, confidence-free alternative list: the code's pick and
the spec's pick agree, resolve to a string with non-empty trim, and leave
the same remaining supply. -/
theorem pick_agrees (alts : List Alt) (hne : alts ≠ [])
    (hok : alts.all altOk = true)
    (hnc : alts.all (fun a2 => a2.confidence.isNone) = true)
    (supply : List Nat) :
    ∃ s sup2, chooseBestAlternative alts supply = (some s, sup2) ∧
      specAltSelect alts supply = (some s, sup2) ∧ jsTrim s ≠ "" := by
  have hf : firstMaxPair alts 0 = none := allNone_firstMaxPair alts 0 hnc
  have hmax : specMaxConf alts = none := allNone_specMaxConf alts hnc
  have hlen : 0 < alts.length := List.length_pos.mpr hne
  have hgood : ∀ idx : Nat, idx < alts.length →
      ∃ s, (alts.get? idx).bind altText = some s ∧ jsTrim s ≠ "" := by
    intro idx hidx
    have hsome : alts.get? idx = some (alts.get ⟨idx, hidx⟩) := List.get?_eq_get hidx
    have hmem : alts.get ⟨idx, hidx⟩ ∈ alts := List.get_mem alts idx hidx
    have hokm : altOk (alts.get ⟨idx, hidx⟩) = true := (List.all_eq_true.mp hok) _ hmem
    cases hat : altText (alts.get ⟨idx, hidx⟩) with
    | none => rw [altOk, hat] at hokm; cases hokm
    | some s =>
      refine ⟨s, ?_, ?_⟩
      · rw [hsome, Option.some_bind]; exact hat
      · rw [altOk, hat] at hokm; exact of_decide_eq_true hokm
  rw [chooseBest_no_conf alts hne hf supply]
  cases supply with
  | nil =>
    obtain ⟨s, hs1, hs2⟩ := hgood 0 hlen
    refine ⟨s, [], ?_, ?_, hs2⟩
    · show ((alts.get? 0).bind altText, ([] : List Nat)) = (some s, [])
      rw [hs1]
    · simp only [specAltSelect, hmax]
      rw [if_neg hne]
      show ((alts.get? 0).bind altText, ([] : List Nat)) = (some s, [])
      rw [hs1]
  | cons r rest =>
    obtain ⟨s, hs1, hs2⟩ := hgood (r % alts.length) (Nat.mod_lt r hlen)
    refine ⟨s, rest, ?_, ?_, hs2⟩
    · show ((alts.get? (r % alts.length)).bind altText, rest) = (some s, rest)
      rw [hs1]
    · simp only [specAltSelect, hmax]
      rw [if_neg hne]
      show ((alts.get? (r % alts.length)).bind altText, rest) = (some s, rest)
      rw [hs1]

/-- Under well-formedness and absence of confidences, the code's
per-segment `parts` loop computes exactly the spec's per-segment
resolution, consuming the random supply identically. -/
theorem partsOf_eq_specParts :
    ∀ (rs : List (Option ResultSegment)) (supply : List Nat),
      segsWellFormed rs = true → segsNoConf rs = true →
      partsOf supply rs = specSegmentsParts supply rs := by
  intro rs
  induction rs with
  | nil => intro supply _ _; rfl
  | cons seg rs ih =>
    intro supply hwf hnc
    cases seg with
    | none =>
      simp only [segsWellFormed] at hwf
      simp only [segsNoConf] at hnc
      simp only [partsOf, specSegmentsParts]
      exact ih supply hwf hnc
    | some r =>
      simp only [segsWellFormed, Bool.and_eq_true] at hwf
      simp only [segsNoConf, Bool.and_eq_true] at hnc
      cases hra : r.alternatives with
      | some alts =>
        cases alts with
        | cons a as =>
          rw [hra] at hwf hnc
          obtain ⟨s, sup2, hc, hs, hts⟩ :=
            pick_agrees (a :: as) (by simp) hwf.1 hnc.1 supply
          have hsne : s ≠ "" := jsTrim_ne_of_trim_ne s hts
          simp only [partsOf, specSegmentsParts, specSegmentResolve, hra, hc, hs,
            if_pos hsne, if_pos hts]
          rw [ih sup2 hwf.2 hnc.2]
        | nil =>
          simp only [partsOf, specSegmentsParts, specSegmentResolve,
            specSegmentFallback, hra]
          cases hrt : r.transcript with
          | some t =>
            by_cases htt : jsTrim t ≠ ""
            · simp only [hrt, if_pos htt]
              rw [ih supply hwf.2 hnc.2]
            · simp only [hrt, if_neg htt]
              cases hrx : r.text with
              | some x =>
                by_cases hxx : jsTrim x ≠ ""
                · simp only [if_pos hxx]
                  rw [ih supply hwf.2 hnc.2]
                · simp only [if_neg hxx]
                  exact ih supply hwf.2 hnc.2
              | none => exact ih supply hwf.2 hnc.2
          | none =>
            cases hrx : r.text with
            | some x =>
              by_cases hxx : jsTrim x ≠ ""
              · simp only [if_pos hxx]
                rw [ih supply hwf.2 hnc.2]
              · simp only [if_neg hxx]
                exact ih supply hwf.2 hnc.2
            | none => exact ih supply hwf.2 hnc.2
      | none =>
        simp only [partsOf, specSegmentsParts, specSegmentResolve,
          specSegmentFallback, hra]
        cases hrt : r.transcript with
        | some t =>
          by_cases htt : jsTrim t ≠ ""
          · simp only [hrt, if_pos htt]
            rw [ih supply hwf.2 hnc.2]
          · simp only [hrt, if_neg htt]
            cases hrx : r.text with
            | some x =>
              by_cases hxx : jsTrim x ≠ ""
              · simp only [if_pos hxx]
                rw [ih supply hwf.2 hnc.2]
              · simp only [if_neg hxx]
                exact ih supply hwf.2 hnc.2
            | none => exact ih supply hwf.2 hnc.2
        | none =>
          cases hrx : r.text with
          | some x =>
            by_cases hxx : jsTrim x ≠ ""
            · simp only [if_pos hxx]
              rw [ih supply hwf.2 hnc.2]
            · simp only [if_neg hxx]
              exact ih supply hwf.2 hnc.2
          | none => exact ih supply hwf.2 hnc.2

theorem collectSegAlts_confs (alts : List Alt)
    (h : alts.all (fun a2 => a2.confidence.isNone) = true) :
    ∀ p ∈ collectSegAlts alts, p.2 = none := by
  induction alts with
  | nil => intro p hp; cases hp
  | cons a rest ih =>
    rw [List.all_cons, Bool.and_eq_true] at h
    intro p hp
    simp only [collectSegAlts] at hp
    by_cases hta : jsTrim ((altText a).getD "") ≠ ""
    · rw [if_pos hta] at hp
      rcases List.mem_cons.mp hp with hp | hp
      · rw [hp]; exact Option.isNone_iff_eq_none.mp h.1
      · exact ih h.2 p hp
    · rw [if_neg hta] at hp
      exact ih h.2 p hp

theorem flatAlts_confs :
    ∀ rs : List (Option ResultSegment), segsNoConf rs = true →
      ∀ p ∈ flatAltsOf rs, p.2 = none := by
  intro rs
  induction rs with
  | nil => intro _ p hp; cases hp
  | cons seg rs ih =>
    intro hnc p hp
    cases seg with
    | none =>
      simp only [segsNoConf] at hnc
      simp only [flatAltsOf] at hp
      exact ih hnc p hp
    | some r =>
      simp only [segsNoConf, Bool.and_eq_true] at hnc
      cases hra : r.alternatives with
      | some alts =>
        cases alts with
        | cons a as =>
          rw [hra] at hnc
          simp only [flatAltsOf, hra] at hp
          rcases List.mem_append.mp hp with hp | hp
          · exact collectSegAlts_confs (a :: as) hnc.1 p hp
          · exact ih hnc.2 p hp
        | nil =>
          rw [hra] at hnc
          simp only [flatAltsOf, hra] at hp
          cases hrt : r.transcript with
          | some t =>
            simp only [hrt] at hp
            by_cases htt : jsTrim t ≠ ""
            · rw [if_pos htt] at hp
              rcases List.mem_cons.mp hp with hp | hp
              · rw [hp]; exact Option.isNone_iff_eq_none.mp hnc.1
              · exact ih hnc.2 p hp
            · rw [if_neg htt] at hp
              cases hrx : r.text with
              | some x =>
                simp only [hrx] at hp
                by_cases hxx : jsTrim x ≠ ""
                · rw [if_pos hxx] at hp
                  rcases List.mem_cons.mp hp with hp | hp
                  · rw [hp]
                  · exact ih hnc.2 p hp
                · rw [if_neg hxx] at hp
                  exact ih hnc.2 p hp
              | none => simp only [hrx] at hp; exact ih hnc.2 p hp
          | none =>
            simp only [hrt] at hp
            cases hrx : r.text with
            | some x =>
              simp only [hrx] at hp
              by_cases hxx : jsTrim x ≠ ""
              · rw [if_pos hxx] at hp
                rcases List.mem_cons.mp hp with hp | hp
                · rw [hp]
                · exact ih hnc.2 p hp
              · rw [if_neg hxx] at hp
                exact ih hnc.2 p hp
            | none => simp only [hrx] at hp; exact ih hnc.2 p hp
      | none =>
        rw [hra] at hnc
        simp only [flatAltsOf, hra] at hp
        cases hrt : r.transcript with
        | some t =>
          simp only [hrt] at hp
          by_cases htt : jsTrim t ≠ ""
          · rw [if_pos htt] at hp
            rcases List.mem_cons.mp hp with hp | hp
            · rw [hp]; exact Option.isNone_iff_eq_none.mp hnc.1
            · exact ih hnc.2 p hp
          · rw [if_neg htt] at hp
            cases hrx : r.text with
            | some x =>
              simp only [hrx] at hp
              by_cases hxx : jsTrim x ≠ ""
              · rw [if_pos hxx] at hp
                rcases List.mem_cons.mp hp with hp | hp
                · rw [hp]
                · exact ih hnc.2 p hp
              · rw [if_neg hxx] at hp
                exact ih hnc.2 p hp
            | none => simp only [hrx] at hp; exact ih hnc.2 p hp
        | none =>
          simp only [hrt] at hp
          cases hrx : r.text with
          | some x =>
            simp only [hrx] at hp
            by_cases hxx : jsTrim x ≠ ""
            · rw [if_pos hxx] at hp
              rcases List.mem_cons.mp hp with hp | hp
              · rw [hp]
              · exact ih hnc.2 p hp
            · rw [if_neg hxx] at hp
              exact ih hnc.2 p hp
          | none => simp only [hrx] at hp; exact ih hnc.2 p hp

/-! ## Claim C4 — per-segment join of a results payload (corrected;
amended theorem) -/

/-- A segment whose only alternative resolves to the empty string but whose
`transcript` field is `"hello"`: the code's `if (best)` falsy check skips
such a segment wholesale, while the spec's per-segment rule falls back to
the segment's `transcript`. -/
def emptyAltSeg : ResultSegment :=
  ⟨some [⟨some "", none, none⟩], some "hello", none, none⟩

/-- A payload whose earlier probes are absent and whose `results` list
holds only `emptyAltSeg`. -/
def emptyAltPayload : Payload :=
  ⟨none, none, some [some emptyAltSeg], none, none⟩

theorem emptyAlt_code_skips (supply : List Nat) :
    extractTranscriptFromEvent (some emptyAltPayload) supply = none := by
  cases supply with
  | nil => rfl
  | cons r rest =>
    have h2 : r % ([(⟨some "", none, none⟩ : Alt)]).length = 0 := Nat.mod_one r
    have h1 : chooseBestAlternative [⟨some "", none, none⟩] (r :: rest) =
        (some "", rest) := by
      simp only [chooseBestAlternative, h2]
      rfl
    simp only [extractTranscriptFromEvent, emptyAltPayload, emptyAltSeg,
      extractRest, extractTail, resultsBranch, partsOf, h1]
    rfl

theorem emptyAlt_spec_hello (supply : List Nat) :
    specSegmentsJoin [some emptyAltSeg] supply = "hello" := by
  cases supply with
  | nil => rfl
  | cons r rest =>
    have h2 : r % ([(⟨some "", none, none⟩ : Alt)]).length = 0 := Nat.mod_one r
    have h1 : specAltSelect [⟨some "", none, none⟩] (r :: rest) =
        (some "", rest) := by
      simp only [specAltSelect, h2]
      rfl
    simp only [specSegmentsJoin, specSegmentsParts, specSegmentResolve,
      emptyAltSeg, specSegmentFallback, h1]
    rfl

/-- C4 (amended): for a payload whose earlier probes are absent and whose
`results` list is non-empty, entirely free of numeric confidences AND
well-formed (every alternative listed by a segment resolves to non-empty
trimmed text), the extractor returns exactly the spec's per-segment
resolution joined with single spaces, whenever that join is non-empty.
The well-formedness condition cannot be dropped: a confidence-free segment
whose only alternative is the empty string is skipped wholesale by the
code (the extractor returns `none`) while the per-segment rule falls back
to the segment's `transcript` and joins to `"hello"`, for every random
supply.  (The counterexample shows the claim also fails when confidences
are present.) -/
theorem C4_results_joined_without_confidence :
    (∀ (p : Payload) (rs : List (Option ResultSegment)) (supply : List Nat),
      p.transcript = none → p.alternatives = none → p.results = some rs →
      rs ≠ [] → segsWellFormed rs = true → segsNoConf rs = true →
      specSegmentsJoin rs supply ≠ "" →
      extractTranscriptFromEvent (some p) supply =
        some (specSegmentsJoin rs supply)) ∧
    (∀ supply : List Nat,
      segsNoConf [some emptyAltSeg] = true ∧
      segsWellFormed [some emptyAltSeg] = false ∧
      extractTranscriptFromEvent (some emptyAltPayload) supply = none ∧
      specSegmentsJoin [some emptyAltSeg] supply = "hello") := by
  constructor
  · intro p rs supply h1 h2 h3 hne hwf hnc hj
    cases rs with
    | nil => exact absurd rfl hne
    | cons r rs2 =>
      have hfilter : (flatAltsOf (r :: rs2)).filter (fun a => a.2.isSome) = [] := by
        rw [List.filter_eq_nil_iff]
        intro p2 hp2
        rw [flatAlts_confs (r :: rs2) hnc p2 hp2]
        simp
      have hparts : partsOf supply (r :: rs2) = specSegmentsParts supply (r :: rs2) :=
        partsOf_eq_specParts (r :: rs2) supply hwf hnc
      simp only [extractTranscriptFromEvent, h1, extractRest, h2, extractTail, h3,
        resultsBranch, hfilter, hparts]
      simp only [specSegmentsJoin] at hj ⊢
      simp [if_pos hj]
  · intro supply
    exact ⟨rfl, rfl, emptyAlt_code_skips supply, emptyAlt_spec_hello supply⟩

/-- C4 witness: two confidence-free, well-formed segments on which the
extractor returns the spec join `"buy milk call mom"`, together with the
necessity conjunct instantiated at supply `[0]`: the ill-formed segment
extracts `none` while the spec rule joins to `"hello"`. -/
theorem C4_results_joined_without_confidence_witness :
    (Payload.mk none none
        (some [some ⟨some [⟨some "buy milk", none, none⟩], none, none, none⟩,
               some ⟨some [⟨some "call mom", none, none⟩], none, none, none⟩])
        none none).transcript = none ∧
    segsWellFormed
      [some ⟨some [⟨some "buy milk", none, none⟩], none, none, none⟩,
       some ⟨some [⟨some "call mom", none, none⟩], none, none, none⟩] = true ∧
    segsNoConf
      [some ⟨some [⟨some "buy milk", none, none⟩], none, none, none⟩,
       some ⟨some [⟨some "call mom", none, none⟩], none, none, none⟩] = true ∧
    specSegmentsJoin
      [some ⟨some [⟨some "buy milk", none, none⟩], none, none, none⟩,
       some ⟨some [⟨some "call mom", none, none⟩], none, none, none⟩] [0, 0] =
      "buy milk call mom" ∧
    extractTranscriptFromEvent
      (some (Payload.mk none none
        (some [some ⟨some [⟨some "buy milk", none, none⟩], none, none, none⟩,
               some ⟨some [⟨some "call mom", none, none⟩], none, none, none⟩])
        none none)) [0, 0] =
      some (specSegmentsJoin
        [some ⟨some [⟨some "buy milk", none, none⟩], none, none, none⟩,
         some ⟨some [⟨some "call mom", none, none⟩], none, none, none⟩] [0, 0]) ∧
    segsWellFormed [some emptyAltSeg] = false ∧
    extractTranscriptFromEvent (some emptyAltPayload) [0] = none ∧
    specSegmentsJoin [some emptyAltSeg] [0] = "hello" :=
  ⟨rfl, by decide, by decide, by decide,
    C4_results_joined_without_confidence.1 _ _ [0, 0] rfl rfl rfl (by decide)
      (by decide) (by decide) (by decide),
    (C4_results_joined_without_confidence.2 [0]).2.1,
    (C4_results_joined_without_confidence.2 [0]).2.2.1,
    (C4_results_joined_without_confidence.2 [0]).2.2.2⟩

/-! ## Length bookkeeping for the normalizer passes (supports C9)

Every pass of `normalizeTranscript` only deletes characters.  On a fixed
point of the normalizer nothing can have been deleted, which will let us
conclude that the n-gram scan found no repeated window. -/

theorem dropWhile_length_le (p : Char → Bool) :
    ∀ l : List Char, (l.dropWhile p).length ≤ l.length := by
  intro l
  induction l with
  | nil => exact le_refl 0
  | cons a r ih =>
    by_cases h : p a
    · rw [List.dropWhile_cons_of_pos h]
      exact le_trans ih (by simp)
    · rw [List.dropWhile_cons_of_neg h]

theorem dropWhile_length_eq (p : Char → Bool) :
    ∀ l : List Char, (l.dropWhile p).length = l.length → l.dropWhile p = l := by
  intro l h
  induction l with
  | nil => rfl
  | cons a r _ =>
    by_cases hp : p a
    · rw [List.dropWhile_cons_of_pos hp] at h ⊢
      have := dropWhile_length_le p r
      simp at h
      omega
    · rw [List.dropWhile_cons_of_neg hp]

theorem trimChars_length_le (l : List Char) : (trimChars l).length ≤ l.length := by
  unfold trimChars
  rw [List.length_reverse]
  calc ((l.dropWhile isWs).reverse.dropWhile isWs).length
      ≤ (l.dropWhile isWs).reverse.length := dropWhile_length_le isWs _
    _ = (l.dropWhile isWs).length := List.length_reverse _
    _ ≤ l.length := dropWhile_length_le isWs l

theorem trimChars_length_eq (l : List Char) (h : (trimChars l).length = l.length) :
    trimChars l = l := by
  unfold trimChars at h ⊢
  rw [List.length_reverse] at h
  have h1 : ((l.dropWhile isWs).reverse.dropWhile isWs).length ≤
      (l.dropWhile isWs).reverse.length := dropWhile_length_le isWs _
  have h2 : (l.dropWhile isWs).reverse.length = (l.dropWhile isWs).length :=
    List.length_reverse _
  have h3 : (l.dropWhile isWs).length ≤ l.length := dropWhile_length_le isWs l
  have e1 : (l.dropWhile isWs).length = l.length := by omega
  have e2 : ((l.dropWhile isWs).reverse.dropWhile isWs).length =
      (l.dropWhile isWs).reverse.length := by omega
  rw [dropWhile_length_eq isWs _ e2, List.reverse_reverse,
    dropWhile_length_eq isWs l e1]

theorem collapseWsAux_length_le : ∀ (b : Bool) (l : List Char),
    (collapseWsAux b l).length ≤ l.length := by
  intro b l
  induction l generalizing b with
  | nil => exact le_refl 0
  | cons c r ih =>
    by_cases h : isWs c = true
    · by_cases hb : b = true
      · simp only [collapseWsAux, h, hb, if_pos, if_true]
        exact le_trans (ih true) (by simp)
      · have hb2 : b = false := by revert hb; cases b <;> simp
        simp only [collapseWsAux, h, hb2, if_true, if_false, List.length_cons]
        exact Nat.succ_le_succ (ih true)
    · have h2 : isWs c = false := by revert h; cases isWs c <;> simp
      simp only [collapseWsAux, h2, Bool.false_eq_true, if_false, List.length_cons]
      exact Nat.succ_le_succ (ih false)

theorem takeWhile_length_le (p : Char → Bool) (l : List Char) :
    (l.takeWhile p).length ≤ l.length := by
  have h := congrArg List.length (List.takeWhile_append_dropWhile p l)
  rw [List.length_append] at h
  omega

theorem takeWhile_add_dropWhile_length (p : Char → Bool) (l : List Char) :
    (l.takeWhile p).length + (l.dropWhile p).length = l.length := by
  have h := congrArg List.length (List.takeWhile_append_dropWhile p l)
  rw [List.length_append] at h
  exact h

theorem eatReps_length_le : ∀ (fuel : Nat) (w l : List Char),
    (eatReps fuel w l).length ≤ l.length := by
  intro fuel
  induction fuel with
  | zero => intro w l; exact le_refl _
  | succ k ih =>
    intro w l
    cases l with
    | nil => exact le_refl _
    | cons c t =>
      by_cases hrep : (c = ' ' && ciEq (t.take w.length) w &&
          boundaryAfter (t.drop w.length)) = true
      · simp only [eatReps, hrep, if_true]
        calc (eatReps k w (t.drop w.length)).length
            ≤ (t.drop w.length).length := ih w _
          _ ≤ t.length := by rw [List.length_drop]; omega
          _ ≤ (c :: t).length := by simp
      · simp only [eatReps, hrep, Bool.false_eq_true, if_false]
        exact le_refl _

theorem eatReps_eq_or_lt : ∀ (fuel : Nat) (w l : List Char),
    eatReps fuel w l = l ∨ (eatReps fuel w l).length < l.length := by
  intro fuel
  induction fuel with
  | zero => intro w l; exact Or.inl rfl
  | succ k ih =>
    intro w l
    cases l with
    | nil => exact Or.inl rfl
    | cons c t =>
      by_cases hrep : (c = ' ' && ciEq (t.take w.length) w &&
          boundaryAfter (t.drop w.length)) = true
      · right
        simp only [eatReps, hrep, if_true]
        have h1 : (eatReps k w (t.drop w.length)).length ≤ (t.drop w.length).length :=
          eatReps_length_le k w _
        have h2 : (t.drop w.length).length = t.length - w.length := List.length_drop _ _
        simp only [List.length_cons]
        omega
      · left
        simp only [eatReps, hrep, Bool.false_eq_true, if_false]

theorem dupScan_length_le : ∀ (fuel : Nat) (l : List Char),
    (dupScan fuel l).length ≤ l.length := by
  intro fuel
  induction fuel with
  | zero => intro l; exact le_refl _
  | succ k ih =>
    intro l
    cases l with
    | nil => exact le_refl _
    | cons c rest =>
      by_cases hw : isWordChar c = true
      · simp only [dupScan, hw, if_true, List.length_append, List.length_cons]
        have h1 : (dupScan k (eatReps rest.length (c :: rest.takeWhile isWordChar)
            (rest.dropWhile isWordChar))).length ≤
            (eatReps rest.length (c :: rest.takeWhile isWordChar)
              (rest.dropWhile isWordChar)).length := ih _
        have h2 : (eatReps rest.length (c :: rest.takeWhile isWordChar)
            (rest.dropWhile isWordChar)).length ≤ (rest.dropWhile isWordChar).length :=
          eatReps_length_le _ _ _
        have h3 : (rest.takeWhile isWordChar).length + (rest.dropWhile isWordChar).length =
            rest.length := takeWhile_add_dropWhile_length isWordChar rest
        omega
      · have hw2 : isWordChar c = false := by revert hw; cases isWordChar c <;> simp
        simp only [dupScan, hw2, Bool.false_eq_true, if_false, List.length_cons]
        exact Nat.succ_le_succ (ih rest)

theorem dupScan_eq_or_lt : ∀ (fuel : Nat) (l : List Char),
    dupScan fuel l = l ∨ (dupScan fuel l).length < l.length := by
  intro fuel
  induction fuel with
  | zero => intro l; exact Or.inl rfl
  | succ k ih =>
    intro l
    cases l with
    | nil => exact Or.inl rfl
    | cons c rest =>
      by_cases hw : isWordChar c = true
      · simp only [dupScan, hw, if_true]
        have hsplit : (rest.takeWhile isWordChar).length +
            (rest.dropWhile isWordChar).length = rest.length :=
          takeWhile_add_dropWhile_length isWordChar rest
        rcases eatReps_eq_or_lt rest.length (c :: rest.takeWhile isWordChar)
            (rest.dropWhile isWordChar) with he | he
        · rw [he]
          rcases ih (rest.dropWhile isWordChar) with hd | hd
          · left
            rw [hd]
            have : c :: rest.takeWhile isWordChar ++ rest.dropWhile isWordChar =
                c :: rest := by
              rw [List.cons_append, List.takeWhile_append_dropWhile]
            exact this
          · right
            simp only [List.length_append, List.length_cons]
            omega
        · right
          have h1 : (dupScan k (eatReps rest.length (c :: rest.takeWhile isWordChar)
              (rest.dropWhile isWordChar))).length ≤
              (eatReps rest.length (c :: rest.takeWhile isWordChar)
                (rest.dropWhile isWordChar)).length := dupScan_length_le _ _
          simp only [List.length_append, List.length_cons]
          omega
      · have hw2 : isWordChar c = false := by revert hw; cases isWordChar c <;> simp
        simp only [dupScan, hw2, Bool.false_eq_true, if_false]
        rcases ih rest with hd | hd
        · left; rw [hd]
        · right; simp only [List.length_cons]; omega

theorem punctStrip_length_le : ∀ (fuel : Nat) (l : List Char),
    (punctStrip fuel l).length ≤ l.length := by
  intro fuel
  induction fuel with
  | zero => intro l; exact le_refl _
  | succ k ih =>
    intro l
    cases l with
    | nil => exact le_refl _
    | cons c rest =>
      by_cases hw : isWs c = true
      · simp only [punctStrip, hw, if_true]
        cases hdw : rest.dropWhile isWs with
        | nil =>
          simp only [List.length_cons]
          have : (rest.takeWhile isWs).length ≤ rest.length :=
            takeWhile_length_le _ _
          omega
        | cons p t =>
          have hsplit : (rest.takeWhile isWs).length + (p :: t).length = rest.length := by
            have h0 := takeWhile_add_dropWhile_length isWs rest
            rw [hdw] at h0
            exact h0
          by_cases hp : isPunctMark p = true
          · simp only [hp, if_true, List.length_cons]
            have := ih t
            simp only [List.length_cons] at hsplit
            omega
          · have hp2 : isPunctMark p = false := by revert hp; cases isPunctMark p <;> simp
            simp only [hp2, Bool.false_eq_true, if_false, List.length_append,
              List.length_cons]
            have := ih t
            simp only [List.length_cons] at hsplit
            omega
      · have hw2 : isWs c = false := by revert hw; cases isWs c <;> simp
        simp only [punctStrip, hw2, Bool.false_eq_true, if_false, List.length_cons]
        exact Nat.succ_le_succ (ih rest)

theorem punctStrip_eq_or_lt : ∀ (fuel : Nat) (l : List Char),
    punctStrip fuel l = l ∨ (punctStrip fuel l).length < l.length := by
  intro fuel
  induction fuel with
  | zero => intro l; exact Or.inl rfl
  | succ k ih =>
    intro l
    cases l with
    | nil => exact Or.inl rfl
    | cons c rest =>
      by_cases hw : isWs c = true
      · simp only [punctStrip, hw, if_true]
        cases hdw : rest.dropWhile isWs with
        | nil =>
          left
          have : rest.takeWhile isWs = rest := by
            have := List.takeWhile_append_dropWhile isWs rest
            rw [hdw, List.append_nil] at this
            exact this
          rw [this]
        | cons p t =>
          have hsplit : (rest.takeWhile isWs).length + (p :: t).length = rest.length := by
            have h0 := takeWhile_add_dropWhile_length isWs rest
            rw [hdw] at h0
            exact h0
          by_cases hp : isPunctMark p = true
          · right
            simp only [hp, if_true, List.length_cons]
            have := punctStrip_length_le k t
            simp only [List.length_cons] at hsplit
            omega
          · have hp2 : isPunctMark p = false := by revert hp; cases isPunctMark p <;> simp
            simp only [hp2, Bool.false_eq_true, if_false]
            rcases ih t with ht | ht
            · left
              rw [ht]
              have : (c :: rest.takeWhile isWs) ++ (p :: t) = c :: rest := by
                rw [List.cons_append]
                have := List.takeWhile_append_dropWhile isWs rest
                rw [hdw] at this
                rw [this]
              exact this
            · right
              simp only [List.length_append, List.length_cons]
              simp only [List.length_cons] at hsplit
              omega
      · have hw2 : isWs c = false := by revert hw; cases isWs c <;> simp
        simp only [punctStrip, hw2, Bool.false_eq_true, if_false]
        rcases ih rest with hr | hr
        · left; rw [hr]
        · right; simp only [List.length_cons]; omega

/-! ## Join-length accounting for the n-gram scan (supports C9) -/

/-- One more than the length of `joinSp l` for non-empty `l`: each token
contributes its length plus one separator slot. -/
def jlenP (l : List (List Char)) : Nat := (l.map List.length).sum + l.length

theorem jlenP_append (a b : List (List Char)) : jlenP (a ++ b) = jlenP a + jlenP b := by
  simp [jlenP]
  omega

theorem jlenP_cons (w : List Char) (l : List (List Char)) :
    jlenP (w :: l) = w.length + 1 + jlenP l := by
  simp [jlenP]
  omega

theorem jlenP_ge_length (l : List (List Char)) : l.length ≤ jlenP l := by
  simp [jlenP]

theorem joinSpAux_length (l : List (List Char)) : (joinSpAux l).length = jlenP l := by
  induction l with
  | nil => rfl
  | cons t rest ih =>
    simp only [joinSpAux, List.length_cons, List.length_append, ih, jlenP_cons]
    omega

theorem joinSp_length (w : List Char) (rest : List (List Char)) :
    (joinSp (w :: rest)).length + 1 = jlenP (w :: rest) := by
  simp only [joinSp, List.length_append, joinSpAux_length, jlenP_cons]
  omega

theorem jlenP_take_le (l : List (List Char)) (n m : Nat) (h : n ≤ m) :
    jlenP (l.take n) ≤ jlenP (l.take m) := by
  have h1 : (l.take m).take n = l.take n := by
    rw [List.take_take]
    congr 1
    omega
  have h2 : (l.take m).take n ++ (l.take m).drop n = l.take m :=
    List.take_append_drop n (l.take m)
  have h3 := jlenP_append ((l.take m).take n) ((l.take m).drop n)
  rw [h2, h1] at h3
  omega

theorem ngramMatch_le (n : Nat) (l : List (List Char)) (h : ngramMatch n l = true) :
    2 * n ≤ l.length := by
  rw [ngramMatch, Bool.and_eq_true] at h
  exact of_decide_eq_true h.1

/-- A matched window makes room for the dropped copy: the kept prefix plus
everything after the two windows accounts for at least `n` fewer separator
slots than the whole list. -/
theorem ngram_window_bound (n : Nat) (l : List (List Char))
    (h : ngramMatch n l = true) :
    jlenP (l.take n) + jlenP (l.drop (2 * n)) + n ≤ jlenP l := by
  have hlen := ngramMatch_le n l h
  have h1 : l.take (2 * n) ++ l.drop (2 * n) = l := List.take_append_drop (2 * n) l
  have h2 := jlenP_append (l.take (2 * n)) (l.drop (2 * n))
  rw [h1] at h2
  have h3 : jlenP (l.take n) + n ≤ jlenP (l.take (2 * n)) := by
    have h4 : (l.take (2 * n)).take n ++ (l.take (2 * n)).drop n = l.take (2 * n) :=
      List.take_append_drop n (l.take (2 * n))
    have h5 := jlenP_append ((l.take (2 * n)).take n) ((l.take (2 * n)).drop n)
    rw [h4] at h5
    have h6 : (l.take (2 * n)).take n = l.take n := by
      rw [List.take_take]
      congr 1
      omega
    have h7 : ((l.take (2 * n)).drop n).length = n := by
      rw [List.length_drop, List.length_take]
      omega
    have h8 := jlenP_ge_length ((l.take (2 * n)).drop n)
    rw [h6] at h5
    omega
  omega

theorem ngramScan_jlenP_le : ∀ (fuel : Nat) (l : List (List Char)),
    jlenP (ngramScan fuel l) ≤ jlenP l := by
  intro fuel
  induction fuel with
  | zero => intro l; exact le_refl _
  | succ k ih =>
    intro l
    cases l with
    | nil => exact le_refl _
    | cons w rest =>
      by_cases h3 : ngramMatch 3 (w :: rest) = true
      · simp only [ngramScan, h3, if_true]
        rw [jlenP_append]
        have hb := ngram_window_bound 3 (w :: rest) h3
        have hr := ih ((w :: rest).drop 6)
        have h6 : (2 : Nat) * 3 = 6 := by norm_num
        rw [h6] at hb
        omega
      · by_cases h2 : ngramMatch 2 (w :: rest) = true
        · simp only [ngramScan, h3, h2, Bool.false_eq_true, if_false, if_true]
          rw [jlenP_append]
          have hb := ngram_window_bound 2 (w :: rest) h2
          have hr := ih ((w :: rest).drop 4)
          have h4 : (2 : Nat) * 2 = 4 := by norm_num
          rw [h4] at hb
          omega
        · by_cases h1 : ngramMatch 1 (w :: rest) = true
          · simp only [ngramScan, h3, h2, h1, Bool.false_eq_true, if_false, if_true]
            rw [jlenP_append]
            have hb := ngram_window_bound 1 (w :: rest) h1
            have hr := ih ((w :: rest).drop 2)
            have h22 : (2 : Nat) * 1 = 2 := by norm_num
            rw [h22] at hb
            omega
          · simp only [ngramScan, h3, h2, h1, Bool.false_eq_true, if_false]
            rw [jlenP_cons, jlenP_cons]
            have := ih rest
            omega

theorem ngramScan_eq_or_lt : ∀ (fuel : Nat) (l : List (List Char)),
    ngramScan fuel l = l ∨ jlenP (ngramScan fuel l) < jlenP l := by
  intro fuel
  induction fuel with
  | zero => intro l; exact Or.inl rfl
  | succ k ih =>
    intro l
    cases l with
    | nil => exact Or.inl rfl
    | cons w rest =>
      by_cases h3 : ngramMatch 3 (w :: rest) = true
      · right
        simp only [ngramScan, h3, if_true]
        rw [jlenP_append]
        have hb := ngram_window_bound 3 (w :: rest) h3
        have hr := ngramScan_jlenP_le k ((w :: rest).drop 6)
        have h6 : (2 : Nat) * 3 = 6 := by norm_num
        rw [h6] at hb
        omega
      · by_cases h2 : ngramMatch 2 (w :: rest) = true
        · right
          simp only [ngramScan, h3, h2, Bool.false_eq_true, if_false, if_true]
          rw [jlenP_append]
          have hb := ngram_window_bound 2 (w :: rest) h2
          have hr := ngramScan_jlenP_le k ((w :: rest).drop 4)
          have h4 : (2 : Nat) * 2 = 4 := by norm_num
          rw [h4] at hb
          omega
        · by_cases h1 : ngramMatch 1 (w :: rest) = true
          · right
            simp only [ngramScan, h3, h2, h1, Bool.false_eq_true, if_false, if_true]
            rw [jlenP_append]
            have hb := ngram_window_bound 1 (w :: rest) h1
            have hr := ngramScan_jlenP_le k ((w :: rest).drop 2)
            have h22 : (2 : Nat) * 1 = 2 := by norm_num
            rw [h22] at hb
            omega
          · simp only [ngramScan, h3, h2, h1, Bool.false_eq_true, if_false]
            rcases ih rest with hr | hr
            · left; rw [hr]
            · right
              rw [jlenP_cons, jlenP_cons]
              omega

theorem ngramScan_ne_nil : ∀ (fuel : Nat) (l : List (List Char)), l ≠ [] →
    ngramScan fuel l ≠ [] := by
  intro fuel
  induction fuel with
  | zero => intro l h; exact h
  | succ k _ =>
    intro l h
    cases l with
    | nil => exact absurd rfl h
    | cons w rest =>
      by_cases h3 : ngramMatch 3 (w :: rest) = true
      · simp [ngramScan, h3]
      · by_cases h2 : ngramMatch 2 (w :: rest) = true
        · simp [ngramScan, h3, h2]
        · by_cases h1 : ngramMatch 1 (w :: rest) = true
          · simp [ngramScan, h3, h2, h1]
          · simp [ngramScan, h3, h2, h1]

/-- An unchanged scan certifies the postcondition: if the n-gram scan (with
enough fuel to visit every position) returns its input unchanged, no
position starts a repeated 1/2/3-token window. -/
theorem ngramScan_fix_noRepeat : ∀ (fuel : Nat) (l : List (List Char)),
    l.length ≤ fuel → ngramScan fuel l = l → noRepeatB l = true := by
  intro fuel
  induction fuel with
  | zero =>
    intro l hl _
    have : l = [] := List.length_eq_zero.mp (by omega)
    rw [this]
    rfl
  | succ k ih =>
    intro l hl hfix
    cases l with
    | nil => rfl
    | cons w rest =>
      by_cases h3 : ngramMatch 3 (w :: rest) = true
      · exfalso
        have hlt : jlenP (ngramScan (k + 1) (w :: rest)) < jlenP (w :: rest) := by
          simp only [ngramScan, h3, if_true]
          rw [jlenP_append]
          have hb := ngram_window_bound 3 (w :: rest) h3
          have hr := ngramScan_jlenP_le k ((w :: rest).drop 6)
          have h6 : (2 : Nat) * 3 = 6 := by norm_num
          rw [h6] at hb
          omega
        rw [hfix] at hlt
        omega
      · by_cases h2 : ngramMatch 2 (w :: rest) = true
        · exfalso
          have hlt : jlenP (ngramScan (k + 1) (w :: rest)) < jlenP (w :: rest) := by
            simp only [ngramScan, h3, h2, Bool.false_eq_true, if_false, if_true]
            rw [jlenP_append]
            have hb := ngram_window_bound 2 (w :: rest) h2
            have hr := ngramScan_jlenP_le k ((w :: rest).drop 4)
            have h4 : (2 : Nat) * 2 = 4 := by norm_num
            rw [h4] at hb
            omega
          rw [hfix] at hlt
          omega
        · by_cases h1 : ngramMatch 1 (w :: rest) = true
          · exfalso
            have hlt : jlenP (ngramScan (k + 1) (w :: rest)) < jlenP (w :: rest) := by
              simp only [ngramScan, h3, h2, h1, Bool.false_eq_true, if_false, if_true]
              rw [jlenP_append]
              have hb := ngram_window_bound 1 (w :: rest) h1
              have hr := ngramScan_jlenP_le k ((w :: rest).drop 2)
              have h22 : (2 : Nat) * 1 = 2 := by norm_num
              rw [h22] at hb
              omega
            rw [hfix] at hlt
            omega
          · simp only [ngramScan, h3, h2, h1, Bool.false_eq_true, if_false] at hfix
            have hrest : ngramScan k rest = rest := by
              injection hfix
            have hnr : noRepeatB rest = true := by
              apply ih rest _ hrest
              simp only [List.length_cons] at hl
              omega
            simp [noRepeatB, h3, h2, h1, hnr]

/-! ## Splitting on spaces and joining with spaces round-trips
(supports C9) -/

theorem joinSpAux_nil : joinSpAux [] = [] := rfl

theorem joinSpAux_cons (t : List Char) (rest : List (List Char)) :
    joinSpAux (t :: rest) = ' ' :: (t ++ joinSpAux rest) := rfl

theorem joinSp_cons (t : List Char) (rest : List (List Char)) :
    joinSp (t :: rest) = t ++ joinSpAux rest := rfl

theorem splitSpAux_nil (acc : List Char) : splitSpAux acc [] = [acc.reverse] := rfl

theorem splitSpAux_cons_sp (acc : List Char) (rest : List Char) :
    splitSpAux acc (' ' :: rest) = acc.reverse :: splitSpAux [] rest := by
  rw [splitSpAux, if_pos rfl]

theorem splitSpAux_cons_ne (acc : List Char) (c : Char) (rest : List Char)
    (hc : ¬ c = ' ') : splitSpAux acc (c :: rest) = splitSpAux (c :: acc) rest := by
  rw [splitSpAux, if_neg hc]

theorem joinSpAux_splitSpAux : ∀ (l acc : List Char),
    joinSpAux (splitSpAux acc l) = ' ' :: (acc.reverse ++ l) := by
  intro l
  induction l with
  | nil =>
    intro acc
    rw [splitSpAux_nil, joinSpAux_cons, joinSpAux_nil]
  | cons c rest ih =>
    intro acc
    by_cases hc : c = ' '
    · subst hc
      rw [splitSpAux_cons_sp, joinSpAux_cons, ih []]
      simp
    · rw [splitSpAux_cons_ne acc c rest hc, ih (c :: acc)]
      simp

theorem joinSp_splitSpAux : ∀ (l acc : List Char),
    joinSp (splitSpAux acc l) = acc.reverse ++ l := by
  intro l
  induction l with
  | nil =>
    intro acc
    rw [splitSpAux_nil, joinSp_cons, joinSpAux_nil]
  | cons c rest ih =>
    intro acc
    by_cases hc : c = ' '
    · subst hc
      rw [splitSpAux_cons_sp, joinSp_cons, joinSpAux_splitSpAux rest []]
      simp
    · rw [splitSpAux_cons_ne acc c rest hc, ih (c :: acc)]
      simp

theorem joinSp_splitSp (l : List Char) : joinSp (splitSp l) = l := by
  simpa using joinSp_splitSpAux l []

theorem splitSpAux_ne_nil : ∀ (l acc : List Char), splitSpAux acc l ≠ [] := by
  intro l
  induction l with
  | nil => intro acc; simp [splitSpAux]
  | cons c rest ih =>
    intro acc
    by_cases hc : c = ' '
    · subst hc; simp [splitSpAux]
    · simp only [splitSpAux, if_neg hc]
      exact ih (c :: acc)

theorem splitSp_ne_nil (l : List Char) : splitSp l ≠ [] := splitSpAux_ne_nil l []

/-! ## Fixed points of the normalizer satisfy the postcondition
(supports C9) -/

/-- The pipeline of `normalizeTranscript` on a non-empty input, with the
intermediate values named: if the final output equals the input, nothing
was deleted anywhere, so the n-gram scan was the identity and the token
list of the input carries no repeated window. -/
theorem pipeline_fix (d s1 s2 : List Char) (ws cl : List (List Char))
    (r1 r2 out : List Char)
    (hs1 : s1 = collapseWs (trimChars d))
    (hs2 : s2 = dupCollapse s1)
    (hws : ws = splitSp s2)
    (hcl : cl = ngramScan ws.length ws)
    (hr1 : r1 = trimChars (joinSp cl))
    (hr2 : r2 = dupCollapse r1)
    (hout : out = punctStrip r2.length r2)
    (hfix : out = d) : noRepeatB (splitSp d) = true := by
  have e1 : s1.length ≤ d.length := by
    rw [hs1]
    exact le_trans (collapseWsAux_length_le false (trimChars d)) (trimChars_length_le d)
  have e2 : s2.length ≤ s1.length := by
    rw [hs2]; exact dupScan_length_le s1.length s1
  have e3 : joinSp ws = s2 := by rw [hws]; exact joinSp_splitSp s2
  have hwsne : ws ≠ [] := by rw [hws]; exact splitSp_ne_nil s2
  have hclne : cl ≠ [] := by rw [hcl]; exact ngramScan_ne_nil ws.length ws hwsne
  have e4 : jlenP cl ≤ jlenP ws := by rw [hcl]; exact ngramScan_jlenP_le ws.length ws
  obtain ⟨w0, ws0, hwseq⟩ := List.exists_cons_of_ne_nil hwsne
  obtain ⟨c0, cl0, hcleq⟩ := List.exists_cons_of_ne_nil hclne
  have jws : (joinSp ws).length + 1 = jlenP ws := by rw [hwseq]; exact joinSp_length w0 ws0
  have jcl : (joinSp cl).length + 1 = jlenP cl := by rw [hcleq]; exact joinSp_length c0 cl0
  have e5 : (joinSp cl).length ≤ (joinSp ws).length := by omega
  have e6 : r1.length ≤ (joinSp cl).length := by rw [hr1]; exact trimChars_length_le _
  have e7 : r2.length ≤ r1.length := by rw [hr2]; exact dupScan_length_le _ _
  have e8 : out.length ≤ r2.length := by rw [hout]; exact punctStrip_length_le _ _
  have e9 : (joinSp ws).length = s2.length := congrArg List.length e3
  have etot : out.length = d.length := congrArg List.length hfix
  -- sandwich: every inequality is an equality
  have q8 : out.length = r2.length := by omega
  have q7 : r2.length = r1.length := by omega
  have q6 : r1.length = (joinSp cl).length := by omega
  have q5 : (joinSp cl).length = (joinSp ws).length := by omega
  -- identities downstream of the scan
  have i8 : out = r2 := by
    rcases punctStrip_eq_or_lt r2.length r2 with h | h
    · rw [hout, h]
    · rw [← hout] at h; omega
  have i7 : r2 = r1 := by
    rcases dupScan_eq_or_lt r1.length r1 with h | h
    · rw [hr2]
      exact h
    · exfalso
      have h2 : r2.length < r1.length := by rw [hr2]; exact h
      omega
  have i6 : r1 = joinSp cl := by
    have q6b : (trimChars (joinSp cl)).length = (joinSp cl).length := by
      rw [← hr1]
      omega
    rw [hr1]
    exact trimChars_length_eq (joinSp cl) q6b
  -- the scan itself changed nothing
  have qj : jlenP cl = jlenP ws := by omega
  have i5 : cl = ws := by
    rcases ngramScan_eq_or_lt ws.length ws with h | h
    · rw [hcl, h]
    · rw [← hcl] at h; omega
  have hscan : ngramScan ws.length ws = ws := by rw [← hcl]; exact i5
  have hnr : noRepeatB ws = true :=
    ngramScan_fix_noRepeat ws.length ws (le_refl _) hscan
  -- the input equals the token join of its own split
  have hd2 : d = s2 := by
    rw [← hfix, i8, i7, i6, i5, e3]
  rw [hd2, ← hws]
  exact hnr

/-- On a fixed point of `normalizeTranscript`, the whitespace-token list
satisfies the no-repeated-window postcondition. -/
theorem normalizeTranscript_fix_noRepeat (y : String)
    (h : normalizeTranscript y = y) : noRepeatB (splitSp y.data) = true := by
  by_cases hy : y = ""
  · subst hy
    decide
  · have h2 := congrArg String.data h
    simp only [normalizeTranscript, if_neg hy] at h2
    exact pipeline_fix y.data _ _ _ _ _ _ _ rfl rfl rfl rfl rfl rfl rfl h2

/-! ## Claim C9 — amended theorem -/

/-- C9 (amended): whenever the normalizer's output is stable under a second
application, the output's token list contains no two case-insensitively
identical adjacent tokens and no immediately repeated 2- or 3-token phrase;
the unconditional claim fails (see the counterexample). -/
theorem C9_postcondition_on_stable_outputs :
    ∀ txt : String,
      normalizeTranscript (normalizeTranscript txt) = normalizeTranscript txt →
      noRepeatB (splitSp (normalizeTranscript txt).data) = true :=
  fun txt h => normalizeTranscript_fix_noRepeat (normalizeTranscript txt) h

/-- C9 witness: a transcript with punctuation and two distinct tasks; its
normalization is stable and the postcondition holds of it. -/
theorem C9_postcondition_on_stable_outputs_witness :
    normalizeTranscript (normalizeTranscript "buy milk, call mom") =
      normalizeTranscript "buy milk, call mom" ∧
    noRepeatB (splitSp (normalizeTranscript "buy milk, call mom").data) = true :=
  ⟨by decide, C9_postcondition_on_stable_outputs "buy milk, call mom" (by decide)⟩

end TodoVoice
